import Mathlib

/-!
Verification of the workflow graph-execution engine of this repository.

The definitions below are a shallow embedding of the two source files:

* `src/vscode/webviews/workflow/components/Flow.tsx` — the topological
  sequencer `topologicalEdgeSort`, the pre-run validation in `onExecute`,
  the edge numbering pass `updateEdgeOrder` and the `edgesWithOrder` view.
* `src/vscode/src/workflow/workflow.ts` — the message handler registered by
  `registerWorkflowCommands` (`execute_workflow` / `abort_workflow`), with
  its `activeAbortController` state.

JavaScript `Map`s in the source are only ever read through `get` and
written through `set` (they are never iterated), so they are embedded as
functions `String → Option α`; `get(k) || 0` becomes `(m k).getD 0`
(`0 || 0` is `0` in JavaScript, so the embedding agrees on a stored `0`).
`Array.prototype.sort` with the numeric comparator
`aEdgeIndex - bEdgeIndex` is a stable sort by that key (stability is
guaranteed by the ECMAScript specification), embedded as a stable
insertion sort.  The unbounded `while (queue.length > 0)` loop is embedded
with explicit fuel `kahnFuel`; the measure `kahnMeasure` strictly
decreases per iteration and is at most `kahnFuel` initially
(`initial_measure_le`, used inside `kahnLoop_inv`), so the fuelled
function agrees with the source loop.
-/

/-! ## Data model (Flow.tsx / Nodes.tsx) -/

/-- Node kinds of the workflow editor (`NodeType` in `Nodes.tsx`):
`CLI` runs a command, `LLM` sends a prompt, `PREVIEW` and `INPUT` carry
static content. -/
inductive NodeType where
  | CLI
  | LLM
  | PREVIEW
  | INPUT
deriving DecidableEq, Repr

/-- The kind-specific `data` record of a workflow node.  Fields that may be
absent in the JavaScript object (`command`, `prompt`, `content`) are
`Option`s; `none` embeds JavaScript `undefined`. -/
structure NodeData where
  label : String
  command : Option String := none
  prompt : Option String := none
  content : Option String := none
deriving DecidableEq, Repr

/-- A workflow node (`WorkflowNode` in `Nodes.tsx`): the fields the engine
reads.  Editor-only fields (position, selection state) are omitted. -/
structure WorkflowNode where
  id : String
  type : NodeType
  data : NodeData
deriving DecidableEq, Repr

/-- A workflow edge (`Edge` in `CustomOrderedEdge.tsx`): `target` depends on
`source`. -/
structure Edge where
  id : String
  source : String
  target : String
deriving DecidableEq, Repr

/-! ## JavaScript `Map` embedding -/

/-- Functional update, embedding `Map.set k v` for maps that are only read
back through `get`. -/
def mset {α : Type} (m : String → Option α) (k : String) (v : α) :
    String → Option α :=
  fun x => if x = k then some v else m x

theorem mset_same {α : Type} (m : String → Option α) (k : String) (v : α) :
    mset m k v k = some v := by
  simp [mset]

theorem mset_other {α : Type} (m : String → Option α) (k x : String) (v : α)
    (h : x ≠ k) : mset m k v x = m x := by
  simp [mset, h]

/-! ## `topologicalEdgeSort` (Flow.tsx lines 486–531) -/

/-- The two maps built by the initialisation and graph-building loops:
`graph` is the adjacency map, `inDeg` the in-degree map. -/
structure KahnState where
  graph : String → Option (List String)
  inDeg : String → Option Int

/-- The initialisation loop (lines 491–494):
`graph.set(node.id, []); inDegree.set(node.id, 0)` for each node. -/
def initMaps (nodes : List WorkflowNode) : KahnState :=
  nodes.foldl (fun s n => ⟨mset s.graph n.id [], mset s.inDeg n.id 0⟩)
    ⟨fun _ => none, fun _ => none⟩

/-- One step of the graph-building loop (lines 497–500):
`graph.get(edge.source)?.push(edge.target)` (a push only happens when the
source is a key) and
`inDegree.set(edge.target, (inDegree.get(edge.target) || 0) + 1)`. -/
def addEdge1 (s : KahnState) (e : Edge) : KahnState :=
  let g := match s.graph e.source with
    | some l => mset s.graph e.source (l ++ [e.target])
    | none => s.graph
  ⟨g, mset s.inDeg e.target ((s.inDeg e.target).getD 0 + 1)⟩

/-- The state after both build loops. -/
def buildState (nodes : List WorkflowNode) (edges : List Edge) : KahnState :=
  edges.foldl addEdge1 (initMaps nodes)

/-- `edges.findIndex(edge => edge.source === a.id)` (line 507):
the position of the node's first outgoing edge, `-1` when it has none. -/
def firstEdgeIndex (edges : List Edge) (nid : String) : Int :=
  match edges.findIdx? (fun e => decide (e.source = nid)) with
  | some i => (i : Int)
  | none => -1

/-- Stable insertion of `x` into `l`, modelling one placement decision of
the ECMAScript stable sort with comparator `key a - key b`: `x` goes in
front of the first element whose key is not smaller. -/
def insertByKey (key : WorkflowNode → Int) (x : WorkflowNode) :
    List WorkflowNode → List WorkflowNode
  | [] => [x]
  | y :: ys => if key y < key x then y :: insertByKey key x ys else x :: y :: ys

/-- Stable sort by an integer key: the embedding of
`sourceNodes.sort((a, b) => aEdgeIndex - bEdgeIndex)` (lines 506–510). -/
def sortByKey (key : WorkflowNode → Int) (l : List WorkflowNode) :
    List WorkflowNode :=
  l.foldr (insertByKey key) []

/-- `nodes.filter(node => inDegree.get(node.id) === 0)` (line 503). -/
def sourceNodes (nodes : List WorkflowNode) (edges : List Edge) :
    List WorkflowNode :=
  nodes.filter (fun n => decide ((buildState nodes edges).inDeg n.id = some 0))

/-- The sorted in-degree-0 nodes (lines 506–510). -/
def sortedSourceNodes (nodes : List WorkflowNode) (edges : List Edge) :
    List WorkflowNode :=
  sortByKey (fun n => firstEdgeIndex edges n.id) (sourceNodes nodes edges)

/-- The initial ready queue (line 512): ids of the sorted source nodes. -/
def initialQueue (nodes : List WorkflowNode) (edges : List Edge) :
    List String :=
  (sortedSourceNodes nodes edges).map (·.id)

/-- The inner `for (const neighbor of neighbors)` loop (lines 521–526):
decrement the neighbour's in-degree and enqueue it at the back when the
stored value reaches `0`. -/
def processNeighbors (deg : String → Option Int) (queue : List String) :
    List String → (String → Option Int) × List String
  | [] => (deg, queue)
  | nb :: rest =>
      let d := (deg nb).getD 0 - 1
      let deg' := mset deg nb d
      let queue' := if d = 0 then queue ++ [nb] else queue
      processNeighbors deg' queue' rest

/-- The `while (queue.length > 0)` loop (lines 515–528), with explicit
fuel.  Each iteration shifts the front id, appends it to the result, and
processes its neighbours when the adjacency map has the id as a key.
`topologicalEdgeSort` runs it with fuel that is proved sufficient, so the
`0` branch is never taken there. -/
def kahnLoop (g : String → Option (List String)) :
    Nat → (String → Option Int) → List String → List String → List String
  | 0, _, _, result => result
  | fuel + 1, deg, queue, result =>
      match queue with
      | [] => result
      | nodeId :: rest =>
          match g nodeId with
          | some neighbors =>
              let p := processNeighbors deg rest neighbors
              kahnLoop g fuel p.1 p.2 (result ++ [nodeId])
          | none => kahnLoop g fuel deg rest (result ++ [nodeId])

/-- Fuel used by `topologicalEdgeSort`: at least the seed queue length plus
the number of keys ever stored in the in-degree map, hence sufficient
(proved below). -/
def kahnFuel (nodes : List WorkflowNode) (edges : List Edge) : Nat :=
  nodes.length + nodes.length + edges.length + 1

/-- `topologicalEdgeSort` (Flow.tsx lines 486–531).  The result ids are
mapped back to nodes by `result.map(id => nodes.find(...)!).filter(Boolean)`,
embedded as `filterMap` of `find?`. -/
def topologicalEdgeSort (nodes : List WorkflowNode) (edges : List Edge) :
    List WorkflowNode :=
  let st := buildState nodes edges
  let result := kahnLoop st.graph (kahnFuel nodes edges) st.inDeg
    (initialQueue nodes edges) []
  result.filterMap (fun id => nodes.find? (fun n => decide (n.id = id)))

/-! ## Derived descriptions of the built maps -/

/-- The ids of a node list, in order. -/
def nodeIds (nodes : List WorkflowNode) : List String :=
  nodes.map (·.id)

/-- Number of edges targeting `k`: the in-degree recorded by the build
loop. -/
def inCount (edges : List Edge) (k : String) : Nat :=
  edges.countP (fun e => decide (e.target = k))

/-- Targets of the edges whose source is `k`, in edge-list order: the
adjacency list accumulated by the build loop for a node id `k`. -/
def adjTargets (edges : List Edge) (k : String) : List String :=
  (edges.filter (fun e => decide (e.source = k))).map (·.target)

/-- Number of edges from `s` to `t`. -/
def edgeCount (edges : List Edge) (s t : String) : Nat :=
  edges.countP (fun e => decide (e.source = s ∧ e.target = t))

theorem initMaps_graph (nodes : List WorkflowNode) (k : String) :
    (initMaps nodes).graph k =
      if k ∈ nodeIds nodes then some [] else none := by
  suffices h : ∀ (s : KahnState),
      (nodes.foldl (fun s n => ⟨mset s.graph n.id [], mset s.inDeg n.id 0⟩)
        s).graph k =
      if k ∈ nodeIds nodes then some [] else s.graph k by
    simpa [initMaps] using h ⟨fun _ => none, fun _ => none⟩
  induction nodes with
  | nil => intro s; simp [nodeIds]
  | cons n ns ih =>
      intro s
      simp only [List.foldl_cons, ih, nodeIds, List.map_cons, List.mem_cons]
      by_cases hk : k ∈ ns.map (·.id)
      · simp [nodeIds, hk]
      · by_cases he : k = n.id <;> simp [nodeIds, hk, he, mset]

theorem initMaps_inDeg (nodes : List WorkflowNode) (k : String) :
    (initMaps nodes).inDeg k =
      if k ∈ nodeIds nodes then some 0 else none := by
  suffices h : ∀ (s : KahnState),
      (nodes.foldl (fun s n => ⟨mset s.graph n.id [], mset s.inDeg n.id 0⟩)
        s).inDeg k =
      if k ∈ nodeIds nodes then some 0 else s.inDeg k by
    simpa [initMaps] using h ⟨fun _ => none, fun _ => none⟩
  induction nodes with
  | nil => intro s; simp [nodeIds]
  | cons n ns ih =>
      intro s
      simp only [List.foldl_cons, ih, nodeIds, List.map_cons, List.mem_cons]
      by_cases hk : k ∈ ns.map (·.id)
      · simp [nodeIds, hk]
      · by_cases he : k = n.id <;> simp [nodeIds, hk, he, mset]

theorem foldl_addEdge1_inDeg (es : List Edge) (s : KahnState) (k : String) :
    (es.foldl addEdge1 s).inDeg k =
      if 0 < inCount es k then some ((s.inDeg k).getD 0 + inCount es k)
      else s.inDeg k := by
  induction es generalizing s with
  | nil => simp [inCount]
  | cons e es ih =>
      simp only [List.foldl_cons, ih]
      by_cases ht : e.target = k
      · have h1 : (addEdge1 s e).inDeg k = some ((s.inDeg k).getD 0 + 1) := by
          simp [addEdge1, ht, mset]
        have h2 : inCount (e :: es) k = inCount es k + 1 := by
          simp [inCount, List.countP_cons, ht]
        by_cases hc : 0 < inCount es k
        · simp only [h1, h2, hc, if_pos, Option.getD_some, Nat.succ_pos,
            Nat.cast_add, Nat.cast_one]
          congr 1
          ring
        · have hz : inCount es k = 0 := by omega
          simp [h1, h2, hz]
      · have h1 : (addEdge1 s e).inDeg k = s.inDeg k := by
          simp only [addEdge1]
          exact mset_other _ _ _ _ (fun h => ht h.symm)
        have h2 : inCount (e :: es) k = inCount es k := by
          simp [inCount, List.countP_cons, ht]
        simp [h1, h2]

theorem foldl_addEdge1_graph (es : List Edge) (s : KahnState) (k : String) :
    (es.foldl addEdge1 s).graph k =
      match s.graph k with
      | some l => some (l ++ adjTargets es k)
      | none => none := by
  induction es generalizing s with
  | nil => cases hg : s.graph k <;> simp [adjTargets, hg]
  | cons e es ih =>
      simp only [List.foldl_cons, ih]
      by_cases hs : e.source = k
      · cases hg : s.graph k with
        | none =>
            have h1 : (addEdge1 s e).graph k = none := by
              simp [addEdge1, hs, hg]
            simp [h1]
        | some l =>
            have h1 : (addEdge1 s e).graph k = some (l ++ [e.target]) := by
              simp only [addEdge1, hs, hg]
              simp [mset]
            have h2 : adjTargets (e :: es) k = e.target :: adjTargets es k := by
              simp [adjTargets, hs]
            simp [h1, h2]
      · have h1 : (addEdge1 s e).graph k = s.graph k := by
          simp only [addEdge1]
          cases hg : s.graph e.source with
          | none => simp
          | some l =>
              simp only []
              exact mset_other _ _ _ _ (fun h => hs h.symm)
        have h2 : adjTargets (e :: es) k = adjTargets es k := by
          simp [adjTargets, hs]
        simp [h1, h2]

theorem buildState_inDeg (nodes : List WorkflowNode) (edges : List Edge)
    (k : String) :
    (buildState nodes edges).inDeg k =
      if k ∈ nodeIds nodes ∨ 0 < inCount edges k
        then some ((inCount edges k : Int))
      else none := by
  rw [buildState, foldl_addEdge1_inDeg, initMaps_inDeg]
  by_cases hm : k ∈ nodeIds nodes
  · by_cases hc : 0 < inCount edges k
    · simp [hm, hc]
    · simp only [hm, hc, if_false, if_true, true_or, Option.getD_some]
      have hz : inCount edges k = 0 := by omega
      simp [hz]
  · by_cases hc : 0 < inCount edges k
    · simp [hm, hc]
    · simp [hm, hc]

theorem buildState_graph (nodes : List WorkflowNode) (edges : List Edge)
    (k : String) :
    (buildState nodes edges).graph k =
      if k ∈ nodeIds nodes then some (adjTargets edges k) else none := by
  rw [buildState, foldl_addEdge1_graph, initMaps_graph]
  by_cases hm : k ∈ nodeIds nodes
  · simp [hm]
  · simp [hm]

theorem sourceNodes_eq (nodes : List WorkflowNode) (edges : List Edge) :
    sourceNodes nodes edges =
      nodes.filter (fun n => decide (inCount edges n.id = 0)) := by
  unfold sourceNodes
  apply List.filter_congr
  intro n hn
  have hid : n.id ∈ nodeIds nodes := List.mem_map_of_mem _ hn
  rw [buildState_inDeg]
  simp only [hid, true_or, if_true]
  by_cases h : inCount edges n.id = 0 <;> simp [h]

/-! ## Properties of the stable sort used for the seed queue -/

theorem insertByKey_perm (key : WorkflowNode → Int) (x : WorkflowNode)
    (l : List WorkflowNode) : List.Perm (insertByKey key x l) (x :: l) := by
  induction l with
  | nil => simp [insertByKey]
  | cons y ys ih =>
      by_cases h : key y < key x
      · simp only [insertByKey, h, if_pos]
        exact (ih.cons y).trans (List.Perm.swap x y ys)
      · simp [insertByKey, h]

theorem sortByKey_perm (key : WorkflowNode → Int) (l : List WorkflowNode) :
    List.Perm (sortByKey key l) l := by
  induction l with
  | nil => simp [sortByKey]
  | cons x xs ih =>
      have h : sortByKey key (x :: xs) = insertByKey key x (sortByKey key xs) :=
        rfl
      rw [h]
      exact (insertByKey_perm key x (sortByKey key xs)).trans (ih.cons x)

theorem insertByKey_sorted (key : WorkflowNode → Int) (x : WorkflowNode)
    (l : List WorkflowNode)
    (h : l.Pairwise (fun a b => key a ≤ key b)) :
    (insertByKey key x l).Pairwise (fun a b => key a ≤ key b) := by
  induction l with
  | nil => simp [insertByKey]
  | cons y ys ih =>
      rw [List.pairwise_cons] at h
      obtain ⟨hy, hys⟩ := h
      by_cases hlt : key y < key x
      · simp only [insertByKey, hlt, if_pos]
        rw [List.pairwise_cons]
        refine ⟨?_, ih hys⟩
        intro z hz
        have hz' : z ∈ x :: ys := (insertByKey_perm key x ys).mem_iff.mp hz
        rcases List.mem_cons.mp hz' with rfl | hz''
        · exact le_of_lt hlt
        · exact hy z hz''
      · simp only [insertByKey, hlt, if_neg, not_false_iff]
        rw [List.pairwise_cons]
        refine ⟨?_, List.pairwise_cons.mpr ⟨hy, hys⟩⟩
        intro z hz
        rcases List.mem_cons.mp hz with rfl | hz'
        · exact le_of_not_lt hlt
        · exact le_trans (le_of_not_lt hlt) (hy z hz')

theorem sortByKey_sorted (key : WorkflowNode → Int) (l : List WorkflowNode) :
    (sortByKey key l).Pairwise (fun a b => key a ≤ key b) := by
  induction l with
  | nil => simp [sortByKey]
  | cons x xs ih => exact insertByKey_sorted key x (sortByKey key xs) ih

theorem insertByKey_filter (key : WorkflowNode → Int) (x : WorkflowNode)
    (l : List WorkflowNode) (c : Int) :
    (insertByKey key x l).filter (fun y => decide (key y = c)) =
      if key x = c then x :: l.filter (fun y => decide (key y = c))
      else l.filter (fun y => decide (key y = c)) := by
  induction l with
  | nil =>
      by_cases h : key x = c <;> simp [insertByKey, h]
  | cons y ys ih =>
      by_cases hlt : key y < key x
      · simp only [insertByKey, hlt, if_pos]
        by_cases hx : key x = c
        · have hy : ¬ key y = c := by
            intro h; rw [h] at hlt; rw [hx] at hlt; exact lt_irrefl c hlt
          simp [List.filter_cons, hx, hy, ih]
        · simp [List.filter_cons, ih, hx]
      · simp only [insertByKey, hlt, if_neg, not_false_iff]
        by_cases hx : key x = c <;> simp [List.filter_cons, hx]

theorem sortByKey_filter (key : WorkflowNode → Int) (l : List WorkflowNode)
    (c : Int) :
    (sortByKey key l).filter (fun y => decide (key y = c)) =
      l.filter (fun y => decide (key y = c)) := by
  induction l with
  | nil => simp [sortByKey]
  | cons x xs ih =>
      have h : sortByKey key (x :: xs) = insertByKey key x (sortByKey key xs) :=
        rfl
      rw [h, insertByKey_filter]
      by_cases hx : key x = c <;> simp [List.filter_cons, hx, ih]

/-! ## Positions in a result list -/

/-- Index of the first occurrence of `k` in `l` (length of `l` when
absent). -/
def idxOf (l : List String) (k : String) : Nat :=
  l.findIdx (fun x => decide (x = k))

theorem idxOf_cons_self (k : String) (rest : List String) :
    idxOf (k :: rest) k = 0 := by
  simp [idxOf, List.findIdx_cons]

theorem idxOf_cons_ne (x : String) (rest : List String) (k : String)
    (h : x ≠ k) : idxOf (x :: rest) k = idxOf rest k + 1 := by
  simp [idxOf, List.findIdx_cons, h]

theorem idxOf_append_left (l₁ l₂ : List String) (k : String) (h : k ∈ l₁) :
    idxOf (l₁ ++ l₂) k = idxOf l₁ k := by
  induction l₁ with
  | nil => cases h
  | cons x xs ih =>
      by_cases hx : x = k
      · subst hx
        simp [idxOf_cons_self]
      · have hm : k ∈ xs := by
          rcases List.mem_cons.mp h with h' | h'
          · exact absurd h'.symm hx
          · exact h'
        rw [List.cons_append, idxOf_cons_ne x _ k hx, idxOf_cons_ne x _ k hx,
          ih hm]

theorem idxOf_append_self (l : List String) (k : String) (h : k ∉ l) :
    idxOf (l ++ [k]) k = l.length := by
  induction l with
  | nil => simp [idxOf_cons_self]
  | cons x xs ih =>
      have hx : x ≠ k := fun he => h (he ▸ List.mem_cons_self x xs)
      have hxs : k ∉ xs := fun hm => h (List.mem_cons_of_mem x hm)
      rw [List.cons_append, idxOf_cons_ne x _ k hx, ih hxs, List.length_cons]

theorem idxOf_lt_length (l : List String) (k : String) (h : k ∈ l) :
    idxOf l k < l.length := by
  induction l with
  | nil => cases h
  | cons x xs ih =>
      by_cases hx : x = k
      · subst hx
        simp [idxOf_cons_self]
      · have hm : k ∈ xs := by
          rcases List.mem_cons.mp h with h' | h'
          · exact absurd h'.symm hx
          · exact h'
        rw [idxOf_cons_ne x _ k hx, List.length_cons]
        exact Nat.succ_lt_succ (ih hm)

/-! ## Counting helpers for the loop invariants -/

/-- Number of edges into `k` whose source has not yet been emitted. -/
def pendingCount (edges : List Edge) (done : List String) (k : String) : Nat :=
  edges.countP (fun e => decide (e.target = k ∧ e.source ∉ done))

theorem pendingCount_nil (edges : List Edge) (k : String) :
    pendingCount edges [] k = inCount edges k := by
  unfold pendingCount inCount
  induction edges with
  | nil => rfl
  | cons e es ih => by_cases h : e.target = k <;> simp [List.countP_cons, h, ih]

theorem pendingCount_split (edges : List Edge) (result : List String)
    (nodeId : String) (h : nodeId ∉ result) (k : String) :
    pendingCount edges result k =
      pendingCount edges (result ++ [nodeId]) k + edgeCount edges nodeId k := by
  unfold pendingCount edgeCount
  induction edges with
  | nil => rfl
  | cons e es ih =>
      simp only [List.countP_cons]
      rw [ih]
      have hsplit :
          (if decide (e.target = k ∧ e.source ∉ result) = true then 1 else 0) =
            (if decide (e.target = k ∧ e.source ∉ result ++ [nodeId]) = true
              then 1 else 0) +
            (if decide (e.source = nodeId ∧ e.target = k) = true
              then 1 else 0) := by
        by_cases ht : e.target = k
        · by_cases hs : e.source = nodeId
          · have h1 : e.source ∉ result := hs ▸ h
            have h2 : e.source ∈ result ++ [nodeId] := by
              rw [hs]
              exact List.mem_append_right _ (List.mem_singleton.mpr rfl)
            simp [ht, hs, h1, h2, h]
          · by_cases hr : e.source ∈ result
            · have h2 : e.source ∈ result ++ [nodeId] :=
                List.mem_append_left _ hr
              simp [ht, hs, hr, h2]
            · have h2 : e.source ∉ result ++ [nodeId] := by
                intro hm
                rcases List.mem_append.mp hm with hm' | hm'
                · exact hr hm'
                · exact hs (List.mem_singleton.mp hm')
              simp [ht, hs, hr, h2]
        · simp [ht]
      omega

theorem pendingCount_eq_zero (edges : List Edge) (done : List String)
    (k : String) :
    pendingCount edges done k = 0 ↔
      ∀ e ∈ edges, e.target = k → e.source ∈ done := by
  unfold pendingCount
  rw [List.countP_eq_zero]
  constructor
  · intro h e he ht
    by_contra hs
    exact h e he (by simp [ht, hs])
  · intro h e he
    simp only [decide_eq_true_eq, not_and]
    intro ht hs
    exact hs (h e he ht)

theorem pendingCount_mono (edges : List Edge) (done done' : List String)
    (hsub : ∀ x ∈ done, x ∈ done') (k : String) :
    pendingCount edges done' k ≤ pendingCount edges done k := by
  unfold pendingCount
  apply List.countP_mono_left
  intro e _
  simp only [decide_eq_true_eq, and_imp]
  intro ht hs
  exact ⟨ht, fun hm => hs (hsub _ hm)⟩

theorem count_adjTargets (edges : List Edge) (nodeId k : String) :
    (adjTargets edges nodeId).count k = edgeCount edges nodeId k := by
  unfold adjTargets edgeCount
  induction edges with
  | nil => rfl
  | cons e es ih =>
      by_cases hs : e.source = nodeId
      · by_cases ht : e.target = k
        · simp [List.filter_cons, List.count_cons, hs, ht, List.countP_cons, ih]
        · simp [List.filter_cons, List.count_cons, hs, ht, List.countP_cons, ih]
      · simp [List.filter_cons, List.countP_cons, hs, ih]

theorem mem_adjTargets (edges : List Edge) (nodeId k : String) :
    k ∈ adjTargets edges nodeId ↔
      ∃ e ∈ edges, e.source = nodeId ∧ e.target = k := by
  unfold adjTargets
  simp only [List.mem_map, List.mem_filter, decide_eq_true_eq]
  constructor
  · rintro ⟨e, ⟨he, hs⟩, ht⟩
    exact ⟨e, he, hs, ht⟩
  · rintro ⟨e, he, hs, ht⟩
    exact ⟨e, ⟨he, hs⟩, ht⟩

/-! ## Nodup invariant of the Kahn loop (holds for arbitrary edge lists) -/

theorem processNeighbors_gen (res : List String) :
    ∀ (ns : List String) (deg : String → Option Int) (queue : List String),
      (res ++ queue).Nodup →
      (∀ k ∈ res ++ queue, (deg k).getD 0 ≤ 0) →
      ((res ++ (processNeighbors deg queue ns).2).Nodup ∧
        ∀ k ∈ res ++ (processNeighbors deg queue ns).2,
          ((processNeighbors deg queue ns).1 k).getD 0 ≤ 0) := by
  intro ns
  induction ns with
  | nil => intro deg queue h1 h2; exact ⟨h1, h2⟩
  | cons nb rest ih =>
      intro deg queue h1 h2
      simp only [processNeighbors]
      by_cases hd : (deg nb).getD 0 - 1 = 0
      · simp only [hd, if_pos]
        apply ih
        · have hnb : nb ∉ res ++ queue := by
            intro hm
            have := h2 nb hm
            omega
          have : (res ++ (queue ++ [nb])) = (res ++ queue) ++ [nb] := by
            simp [List.append_assoc]
          rw [this]
          rw [List.nodup_append]
          refine ⟨h1, List.nodup_singleton nb, ?_⟩
          intro x hx hxnb
          rw [List.mem_singleton] at hxnb
          subst hxnb
          exact hnb hx
        · intro k hk
          by_cases hknb : k = nb
          · subst hknb
            rw [mset_same]
            simp only [Option.getD_some]
            omega
          · rw [mset_other _ _ _ _ hknb]
            apply h2
            rcases List.mem_append.mp hk with h | h
            · exact List.mem_append_left _ h
            · rcases List.mem_append.mp h with h | h
              · exact List.mem_append_right _ h
              · exact absurd (List.mem_singleton.mp h) hknb
      · simp only [hd, if_neg, not_false_iff]
        apply ih
        · exact h1
        · intro k hk
          by_cases hknb : k = nb
          · subst hknb
            rw [mset_same]
            simp only [Option.getD_some]
            have := h2 k hk
            omega
          · rw [mset_other _ _ _ _ hknb]
            exact h2 k hk

theorem kahnLoop_gen (g : String → Option (List String)) :
    ∀ (fuel : Nat) (deg : String → Option Int) (queue result : List String),
      (result ++ queue).Nodup →
      (∀ k ∈ result ++ queue, (deg k).getD 0 ≤ 0) →
      (kahnLoop g fuel deg queue result).Nodup := by
  intro fuel
  induction fuel with
  | zero =>
      intro deg queue result h1 _
      exact (List.nodup_append.mp h1).1
  | succ fuel ih =>
      intro deg queue result h1 h2
      match hq : queue with
      | [] =>
          simp only [kahnLoop]
          simpa using (List.nodup_append.mp h1).1
      | nodeId :: rest =>
          simp only [kahnLoop]
          have hre : result ++ [nodeId] ++ rest = result ++ (nodeId :: rest) := by
            simp
          cases hg : g nodeId with
          | some neighbors =>
              have hp := processNeighbors_gen (result ++ [nodeId]) neighbors deg
                rest (by rw [hre]; exact h1)
                (by rw [hre]; exact h2)
              exact ih _ _ _ hp.1 hp.2
          | none =>
              apply ih
              · rw [hre]; exact h1
              · rw [hre]; exact h2

/-! ## Full invariant of the Kahn loop for graphs with valid edges -/

/-- All edge endpoints reference existing node ids. -/
def validEdges (nodes : List WorkflowNode) (edges : List Edge) : Prop :=
  ∀ e ∈ edges, e.source ∈ nodeIds nodes ∧ e.target ∈ nodeIds nodes

instance (nodes : List WorkflowNode) (edges : List Edge) :
    Decidable (validEdges nodes edges) := by
  unfold validEdges
  infer_instance

/-- The emitted list respects every edge whose target has been emitted:
the source was emitted earlier. -/
def OrderOK (edges : List Edge) (res : List String) : Prop :=
  ∀ e ∈ edges, e.target ∈ res →
    e.source ∈ res ∧ idxOf res e.source < idxOf res e.target

theorem processNeighbors_inv (edges : List Edge) (ids : List String)
    (hv : ∀ e ∈ edges, e.source ∈ ids ∧ e.target ∈ ids)
    (result : List String) (nodeId : String)
    (hlast : nodeId ∉ result)
    (hores : OrderOK edges (result ++ [nodeId])) :
    ∀ (ns : List String) (deg : String → Option Int) (queue : List String),
      ((result ++ [nodeId]) ++ queue).Nodup →
      (∀ k ∈ queue, k ∈ ids) →
      (∀ k ∈ ns, ∃ e ∈ edges, e.source = nodeId ∧ e.target = k) →
      (∀ k ∈ ids, deg k =
        some ((pendingCount edges (result ++ [nodeId]) k : Int) + ns.count k)) →
      (∀ k ∈ queue,
        pendingCount edges (result ++ [nodeId]) k = 0 ∧ ns.count k = 0) →
      (∀ k ∈ ids, k ∉ (result ++ [nodeId]) ++ queue →
        (pendingCount edges (result ++ [nodeId]) k : Int) + ns.count k ≠ 0) →
      (((result ++ [nodeId]) ++ (processNeighbors deg queue ns).2).Nodup ∧
        (∀ k ∈ (processNeighbors deg queue ns).2, k ∈ ids) ∧
        (∀ k ∈ ids, (processNeighbors deg queue ns).1 k =
          some ((pendingCount edges (result ++ [nodeId]) k : Int))) ∧
        (∀ k ∈ (processNeighbors deg queue ns).2,
          pendingCount edges (result ++ [nodeId]) k = 0) ∧
        (∀ k ∈ ids,
          k ∉ (result ++ [nodeId]) ++ (processNeighbors deg queue ns).2 →
          pendingCount edges (result ++ [nodeId]) k ≠ 0) ∧
        (∃ enq, (processNeighbors deg queue ns).2 = queue ++ enq ∧
          ∀ k ∈ enq, k ∈ ns) ∧
        (∀ k, ((processNeighbors deg queue ns).1 k).getD 0 ≤ (deg k).getD 0)) := by
  intro ns
  induction ns with
  | nil =>
      intro deg queue hnodup hqsub _ hdeg hq hnh
      simp only [processNeighbors]
      refine ⟨hnodup, hqsub, ?_, fun k hk => (hq k hk).1, ?_,
        ⟨[], by simp, fun k hk => absurd hk (List.not_mem_nil k)⟩, ?_⟩
      · intro k hk
        have := hdeg k hk
        simpa using this
      · intro k hk hk2
        have h1 := hnh k hk hk2
        simp only [List.count_nil, Nat.cast_zero, add_zero] at h1
        exact fun h2 => h1 (by exact_mod_cast h2)
      · intro k
        exact le_refl _
  | cons nb rest ih =>
      intro deg queue hnodup hqsub hns hdeg hq hnh
      obtain ⟨e0, he0, he0s, he0t⟩ := hns nb (List.mem_cons_self nb rest)
      have hnbid : nb ∈ ids := he0t ▸ (hv e0 he0).2
      have hdnb : deg nb =
          some ((pendingCount edges (result ++ [nodeId]) nb : Int) +
            (nb :: rest).count nb) := hdeg nb hnbid
      have hcount : (nb :: rest).count nb = rest.count nb + 1 :=
        List.count_cons_self nb rest
      have hD : (deg nb).getD 0 - 1 =
          (pendingCount edges (result ++ [nodeId]) nb : Int) + rest.count nb := by
        rw [hdnb]
        simp only [Option.getD_some, hcount]
        push_cast
        ring
      -- `nb` cannot already be emitted: its incoming edge from `nodeId` would
      -- have to point backwards.
      have hnb_not_result : nb ∉ result ++ [nodeId] := by
        intro hmem
        have h1 := hores e0 he0 (he0t ▸ hmem)
        rw [he0s, he0t] at h1
        have hidnode : idxOf (result ++ [nodeId]) nodeId = result.length :=
          idxOf_append_self result nodeId hlast
        rcases List.mem_append.mp hmem with hr | hr
        · have : idxOf (result ++ [nodeId]) nb = idxOf result nb :=
            idxOf_append_left result [nodeId] nb hr
          have hlt := h1.2
          rw [hidnode, this] at hlt
          have := idxOf_lt_length result nb hr
          omega
        · have hnbeq : nb = nodeId := List.mem_singleton.mp hr
          rw [hnbeq] at h1
          have hlt := h1.2
          rw [hidnode] at hlt
          exact lt_irrefl _ hlt
      simp only [processNeighbors]
      by_cases hd0 : (deg nb).getD 0 - 1 = 0
      · -- the decremented value is 0: enqueue `nb`
        have hzero : pendingCount edges (result ++ [nodeId]) nb = 0 ∧
            rest.count nb = 0 := by
          rw [hD] at hd0
          constructor <;> omega
        have hnbq : nb ∉ queue := by
          intro hmem
          have := (hq nb hmem).2
          rw [hcount] at this
          omega
        rw [if_pos hd0]
        have hmain := ih (mset deg nb ((deg nb).getD 0 - 1)) (queue ++ [nb])
          ?_ ?_ ?_ ?_ ?_ ?_
        · obtain ⟨c1, c2, c3, c4, c5, ⟨enq, henq, henqmem⟩, c7⟩ := hmain
          refine ⟨c1, c2, c3, c4, c5, ⟨[nb] ++ enq, ?_, ?_⟩, ?_⟩
          · rw [henq, List.append_assoc]
          · intro k hk
            rcases List.mem_append.mp hk with hk | hk
            · rw [List.mem_singleton.mp hk]
              exact List.mem_cons_self nb rest
            · exact List.mem_cons_of_mem nb (henqmem k hk)
          · intro k
            refine le_trans (c7 k) ?_
            by_cases hknb : k = nb
            · subst hknb
              rw [mset_same]
              simp only [Option.getD_some]
              omega
            · rw [mset_other _ _ _ _ hknb]
        · -- Nodup with `nb` appended to the queue
          have hnotin : nb ∉ (result ++ [nodeId]) ++ queue := by
            intro hmem
            rcases List.mem_append.mp hmem with h | h
            · exact hnb_not_result h
            · exact hnbq h
          have hre : (result ++ [nodeId]) ++ (queue ++ [nb]) =
              (((result ++ [nodeId]) ++ queue) ++ [nb]) := by
            simp [List.append_assoc]
          rw [hre, List.nodup_append]
          refine ⟨hnodup, List.nodup_singleton nb, ?_⟩
          intro x hx hxnb
          rw [List.mem_singleton] at hxnb
          subst hxnb
          exact hnotin hx
        · intro k hk
          rcases List.mem_append.mp hk with h | h
          · exact hqsub k h
          · rw [List.mem_singleton.mp h]
            exact hnbid
        · intro k hk
          exact hns k (List.mem_cons_of_mem nb hk)
        · intro k hk
          by_cases hknb : k = nb
          · subst hknb
            rw [mset_same, hD]
          · rw [mset_other _ _ _ _ hknb, hdeg k hk,
              List.count_cons_of_ne hknb]
        · intro k hk
          rcases List.mem_append.mp hk with h | h
          · have h1 := hq k h
            have hkne : k ≠ nb := by
              intro he
              rw [he, hcount] at h1
              omega
            refine ⟨h1.1, ?_⟩
            have := h1.2
            rwa [List.count_cons_of_ne hkne] at this
          · rw [List.mem_singleton.mp h]
            exact ⟨hzero.1, hzero.2⟩
        · intro k hk hkmem
          have hkne : k ≠ nb := by
            intro he
            apply hkmem
            rw [he]
            exact List.mem_append_right _ (List.mem_append_right _
              (List.mem_singleton.mpr rfl))
          have hkold : k ∉ (result ++ [nodeId]) ++ queue := by
            intro hm
            apply hkmem
            rcases List.mem_append.mp hm with h | h
            · exact List.mem_append_left _ h
            · exact List.mem_append_right _ (List.mem_append_left _ h)
          have h1 := hnh k hk hkold
          rwa [List.count_cons_of_ne hkne] at h1
      · -- the decremented value is nonzero: the queue is unchanged
        rw [if_neg hd0]
        have hmain := ih (mset deg nb ((deg nb).getD 0 - 1)) queue
          ?_ ?_ ?_ ?_ ?_ ?_
        · obtain ⟨c1, c2, c3, c4, c5, ⟨enq, henq, henqmem⟩, c7⟩ := hmain
          refine ⟨c1, c2, c3, c4, c5, ⟨enq, henq, ?_⟩, ?_⟩
          · intro k hk
            exact List.mem_cons_of_mem nb (henqmem k hk)
          · intro k
            refine le_trans (c7 k) ?_
            by_cases hknb : k = nb
            · subst hknb
              rw [mset_same]
              simp only [Option.getD_some]
              omega
            · rw [mset_other _ _ _ _ hknb]
        · exact hnodup
        · exact hqsub
        · intro k hk
          exact hns k (List.mem_cons_of_mem nb hk)
        · intro k hk
          by_cases hknb : k = nb
          · subst hknb
            rw [mset_same, hD]
          · rw [mset_other _ _ _ _ hknb, hdeg k hk,
              List.count_cons_of_ne hknb]
        · intro k hk
          have h1 := hq k hk
          have hkne : k ≠ nb := by
            intro he
            rw [he, hcount] at h1
            omega
          refine ⟨h1.1, ?_⟩
          have := h1.2
          rwa [List.count_cons_of_ne hkne] at this
        · intro k hk hkmem
          by_cases hknb : k = nb
          · subst hknb
            rw [← hD]
            exact hd0
          · have h1 := hnh k hk hkmem
            rwa [List.count_cons_of_ne hknb] at h1

/-- Keys that can carry a positive stored in-degree: node ids and edge
targets. -/
def degKeys (nodes : List WorkflowNode) (edges : List Edge) : Finset String :=
  (nodeIds nodes ++ edges.map (·.target)).toFinset

/-- Number of keys holding a positive in-degree. -/
def posCard (nodes : List WorkflowNode) (edges : List Edge)
    (deg : String → Option Int) : Nat :=
  ((degKeys nodes edges).filter (fun k => 0 < (deg k).getD 0)).card

/-- Decreasing measure of the Kahn loop: pending queue entries plus keys
whose stored in-degree is still positive. -/
def kahnMeasure (nodes : List WorkflowNode) (edges : List Edge)
    (deg : String → Option Int) (queue : List String) : Nat :=
  queue.length + posCard nodes edges deg

theorem kahnLoop_inv (nodes : List WorkflowNode) (edges : List Edge)
    (hv : validEdges nodes edges) :
    ∀ (fuel : Nat) (deg : String → Option Int) (queue result : List String),
      (result ++ queue).Nodup →
      (∀ k ∈ result ++ queue, k ∈ nodeIds nodes) →
      (∀ k ∈ nodeIds nodes, deg k = some ((pendingCount edges result k : Int))) →
      (∀ k ∈ queue, pendingCount edges result k = 0) →
      OrderOK edges result →
      (∀ k ∈ nodeIds nodes, k ∉ result ++ queue →
        pendingCount edges result k ≠ 0) →
      kahnMeasure nodes edges deg queue ≤ fuel →
      ((kahnLoop (buildState nodes edges).graph fuel deg queue result).Nodup ∧
        (∀ k ∈ kahnLoop (buildState nodes edges).graph fuel deg queue result,
          k ∈ nodeIds nodes) ∧
        OrderOK edges
          (kahnLoop (buildState nodes edges).graph fuel deg queue result) ∧
        (∀ k ∈ nodeIds nodes,
          k ∉ kahnLoop (buildState nodes edges).graph fuel deg queue result →
          pendingCount edges
            (kahnLoop (buildState nodes edges).graph fuel deg queue result)
            k ≠ 0)) := by
  intro fuel
  induction fuel with
  | zero =>
      intro deg queue result hnodup hsub _ _ hook hnh hmeas
      have hq0 : queue = [] := by
        have : queue.length = 0 := by
          simp only [kahnMeasure] at hmeas
          omega
        exact List.length_eq_zero.mp this
      subst hq0
      simp only [kahnLoop]
      refine ⟨by simpa using hnodup, fun k hk => hsub k (by simpa using hk),
        hook, fun k hk hk2 => hnh k hk (by simpa using hk2)⟩
  | succ fuel ih =>
      intro deg queue result hnodup hsub hdeg hq hook hnh hmeas
      match hqd : queue with
      | [] =>
          simp only [kahnLoop]
          refine ⟨by simpa using hnodup, fun k hk => hsub k (by simpa using hk),
            hook, fun k hk hk2 => hnh k hk (by simpa using hk2)⟩
      | nodeId :: rest =>
          have hnodeid : nodeId ∈ nodeIds nodes :=
            hsub nodeId (List.mem_append_right _ (List.mem_cons_self _ _))
          have hg : (buildState nodes edges).graph nodeId =
              some (adjTargets edges nodeId) := by
            rw [buildState_graph]
            simp [hnodeid]
          have hlast : nodeId ∉ result := by
            have hdisj := List.disjoint_of_nodup_append hnodup
            intro hmem
            exact hdisj hmem (List.mem_cons_self _ _)
          have hnodup2 : (result ++ [nodeId] ++ rest).Nodup := by
            have : result ++ [nodeId] ++ rest = result ++ (nodeId :: rest) := by
              simp
            rw [this]
            exact hnodup
          have hpend0 : pendingCount edges result nodeId = 0 :=
            hq nodeId (List.mem_cons_self _ _)
          -- order is preserved when `nodeId` is appended
          have hores : OrderOK edges (result ++ [nodeId]) := by
            intro e he hte
            rcases List.mem_append.mp hte with ht | ht
            · obtain ⟨hs, hlt⟩ := hook e he ht
              refine ⟨List.mem_append_left _ hs, ?_⟩
              rw [idxOf_append_left result [nodeId] _ hs,
                idxOf_append_left result [nodeId] _ ht]
              exact hlt
            · have htn : e.target = nodeId := List.mem_singleton.mp ht
              have hs : e.source ∈ result :=
                (pendingCount_eq_zero edges result nodeId).mp hpend0 e he htn
              refine ⟨List.mem_append_left _ hs, ?_⟩
              rw [idxOf_append_left result [nodeId] _ hs, htn,
                idxOf_append_self result nodeId hlast]
              exact idxOf_lt_length result _ hs
          -- entry facts for the neighbour-processing loop
          have hdeg2 : ∀ k ∈ nodeIds nodes, deg k =
              some ((pendingCount edges (result ++ [nodeId]) k : Int) +
                (adjTargets edges nodeId).count k) := by
            intro k hk
            rw [hdeg k hk, pendingCount_split edges result nodeId hlast k,
              count_adjTargets]
            push_cast
            ring_nf
          have hq2 : ∀ k ∈ rest,
              pendingCount edges (result ++ [nodeId]) k = 0 ∧
              (adjTargets edges nodeId).count k = 0 := by
            intro k hk
            have h1 : pendingCount edges result k = 0 :=
              hq k (List.mem_cons_of_mem _ hk)
            constructor
            · have h2 := pendingCount_mono edges result (result ++ [nodeId])
                (fun x hx => List.mem_append_left _ hx) k
              omega
            · rw [count_adjTargets]
              unfold edgeCount
              rw [List.countP_eq_zero]
              intro e he
              simp only [decide_eq_true_eq, not_and]
              intro hs ht
              have := (pendingCount_eq_zero edges result k).mp h1 e he ht
              rw [hs] at this
              exact absurd this hlast
          have hnh2 : ∀ k ∈ nodeIds nodes,
              k ∉ (result ++ [nodeId]) ++ rest →
              (pendingCount edges (result ++ [nodeId]) k : Int) +
                (adjTargets edges nodeId).count k ≠ 0 := by
            intro k hk hkmem
            have hkold : k ∉ result ++ (nodeId :: rest) := by
              intro hm
              apply hkmem
              rcases List.mem_append.mp hm with h | h
              · exact List.mem_append_left _ (List.mem_append_left _ h)
              · rcases List.mem_cons.mp h with h | h
                · exact List.mem_append_left _
                    (List.mem_append_right _ (List.mem_singleton.mpr h))
                · exact List.mem_append_right _ h
            have h1 := hnh k hk hkold
            rw [count_adjTargets]
            have h2 := pendingCount_split edges result nodeId hlast k
            intro hcontra
            apply h1
            have : (pendingCount edges result k : Int) = 0 := by
              rw [h2]
              push_cast
              omega
            exact_mod_cast this
          have hmicro := processNeighbors_inv edges (nodeIds nodes) hv result
            nodeId hlast hores (adjTargets edges nodeId) deg rest hnodup2
            (fun k hk => hsub k (List.mem_append_right _
              (List.mem_cons_of_mem _ hk)))
            (fun k hk => (mem_adjTargets edges nodeId k).mp hk)
            hdeg2 hq2 hnh2
          obtain ⟨c1, c2, c3, c4, c5, ⟨enq, henq, henqmem⟩, c7⟩ := hmicro
          simp only [kahnLoop, hg]
          -- measure decrease
          have henqsub : ∀ k ∈ enq,
              k ∈ (processNeighbors deg rest (adjTargets edges nodeId)).2 := by
            intro k hk
            rw [henq]
            exact List.mem_append_right _ hk
          have henqnodup : enq.Nodup := by
            have h1 := (List.nodup_append.mp c1).2.1
            rw [henq] at h1
            exact (List.nodup_append.mp h1).2.1
          have henqpos : ∀ k ∈ enq, k ∈ degKeys nodes edges ∧
              0 < (deg k).getD 0 ∧
              ((processNeighbors deg rest (adjTargets edges nodeId)).1 k).getD
                0 ≤ 0 := by
            intro k hk
            have hkns := henqmem k hk
            obtain ⟨e, he, hes, het⟩ := (mem_adjTargets edges nodeId k).mp hkns
            have hkid : k ∈ nodeIds nodes := het ▸ (hv e he).2
            have hkdeg := hdeg2 k hkid
            have hcountpos : 0 < (adjTargets edges nodeId).count k :=
              List.count_pos_iff.mpr hkns
            have hkp : pendingCount edges (result ++ [nodeId]) k = 0 :=
              c4 k (henqsub k hk)
            refine ⟨?_, ?_, ?_⟩
            · unfold degKeys
              rw [List.mem_toFinset]
              exact List.mem_append_left _ hkid
            · rw [hkdeg]
              simp only [Option.getD_some]
              have : (0 : Int) ≤ pendingCount edges (result ++ [nodeId]) k :=
                Int.natCast_nonneg _
              omega
            · rw [c3 k hkid, hkp]
              simp
          have hmeas2 : kahnMeasure nodes edges
              (processNeighbors deg rest (adjTargets edges nodeId)).1
              (processNeighbors deg rest (adjTargets edges nodeId)).2 ≤ fuel := by
            simp only [kahnMeasure] at hmeas ⊢
            rw [henq, List.length_append]
            have hsub1 : (degKeys nodes edges).filter
                (fun k => 0 <
                  ((processNeighbors deg rest (adjTargets edges nodeId)).1
                    k).getD 0) ⊆
                ((degKeys nodes edges).filter (fun k => 0 < (deg k).getD 0)) \
                  enq.toFinset := by
              intro k hk
              rw [Finset.mem_filter] at hk
              rw [Finset.mem_sdiff, Finset.mem_filter]
              refine ⟨⟨hk.1, lt_of_lt_of_le hk.2 (c7 k)⟩, ?_⟩
              intro hkenq
              rw [List.mem_toFinset] at hkenq
              have := (henqpos k hkenq).2.2
              omega
            have hsub2 : enq.toFinset ⊆
                (degKeys nodes edges).filter (fun k => 0 < (deg k).getD 0) := by
              intro k hk
              rw [List.mem_toFinset] at hk
              rw [Finset.mem_filter]
              exact ⟨(henqpos k hk).1, (henqpos k hk).2.1⟩
            have hcard1 := Finset.card_le_card hsub1
            rw [Finset.card_sdiff hsub2] at hcard1
            have hcard2 := Finset.card_le_card hsub2
            rw [List.toFinset_card_of_nodup henqnodup] at hcard1 hcard2
            unfold posCard at hmeas ⊢
            simp only [List.length_cons] at hmeas
            omega
          have hres := ih (processNeighbors deg rest (adjTargets edges nodeId)).1
            (processNeighbors deg rest (adjTargets edges nodeId)).2
            (result ++ [nodeId]) c1 ?_ c3 c4 hores c5 hmeas2
          · exact hres
          · intro k hk
            rcases List.mem_append.mp hk with h | h
            · rcases List.mem_append.mp h with h' | h'
              · exact hsub k (List.mem_append_left _ h')
              · rw [List.mem_singleton.mp h']
                exact hnodeid
            · exact c2 k h

/-! ## Cycles -/

/-- One dependency step: some edge goes from `a` to `b`. -/
def edgeStep (edges : List Edge) (a b : String) : Prop :=
  ∃ e ∈ edges, e.source = a ∧ e.target = b

/-- The dependency relation admits no cycle. -/
def Acyclic (edges : List Edge) : Prop :=
  ∀ a : String, ¬ Relation.TransGen (edgeStep edges) a a

/-- A nonempty list closed under taking predecessors contains a cycle. -/
theorem exists_transGen_self {r : String → String → Prop} (N : List String)
    (hne : N ≠ []) (hcl : ∀ u ∈ N, ∃ v ∈ N, r v u) :
    ∃ u, Relation.TransGen r u u := by
  obtain ⟨u0, hu0⟩ := List.exists_mem_of_ne_nil N hne
  choose f hf1 hf2 using hcl
  let g : {u // u ∈ N} → {u // u ∈ N} := fun p => ⟨f p.1 p.2, hf1 p.1 p.2⟩
  let seq : Nat → {u // u ∈ N} := fun n => g^[n] ⟨u0, hu0⟩
  have hstep : ∀ n : Nat, r (seq (n + 1)).1 (seq n).1 := by
    intro n
    have h1 : seq (n + 1) = g (seq n) := Function.iterate_succ_apply' g n _
    rw [h1]
    exact hf2 (seq n).1 (seq n).2
  have htrans : ∀ d n : Nat, Relation.TransGen r (seq (n + d + 1)).1 (seq n).1 := by
    intro d
    induction d with
    | zero => intro n; exact Relation.TransGen.single (hstep n)
    | succ d ihd =>
        intro n
        have h1 : n + (d + 1) + 1 = (n + d + 1) + 1 := by omega
        rw [h1]
        exact Relation.TransGen.head (hstep (n + d + 1)) (ihd n)
  have hmaps : ∀ i ∈ (Finset.univ : Finset (Fin (N.length + 1))),
      (fun i : Fin (N.length + 1) => (seq i.1).1) i ∈ N.toFinset := by
    intro i _
    rw [List.mem_toFinset]
    exact (seq i.1).2
  have hcards : N.toFinset.card <
      (Finset.univ : Finset (Fin (N.length + 1))).card := by
    rw [Finset.card_univ, Fintype.card_fin]
    exact lt_of_le_of_lt (List.toFinset_card_le N) (Nat.lt_succ_self _)
  obtain ⟨i, _, j, _, hij, heq⟩ :=
    Finset.exists_ne_map_eq_of_card_lt_of_maps_to hcards hmaps
  have heq2 : (seq i.1).1 = (seq j.1).1 := heq
  rcases Nat.lt_or_ge i.1 j.1 with hlt | hge
  · refine ⟨(seq j.1).1, ?_⟩
    have h1 : i.1 + (j.1 - i.1 - 1) + 1 = j.1 := by omega
    have h2 := htrans (j.1 - i.1 - 1) i.1
    rw [h1] at h2
    rw [heq2] at h2
    exact h2
  · have hlt : j.1 < i.1 := by
      rcases Nat.lt_or_ge j.1 i.1 with h | h
      · exact h
      · exact absurd (Fin.ext (Nat.le_antisymm h hge)) hij
    refine ⟨(seq i.1).1, ?_⟩
    have h1 : j.1 + (i.1 - j.1 - 1) + 1 = i.1 := by omega
    have h2 := htrans (i.1 - j.1 - 1) j.1
    rw [h1] at h2
    rw [← heq2] at h2
    exact h2

/-- Exhibiting any id list in which every edge points forward establishes
acyclicity; used to discharge `Acyclic` on concrete graphs. -/
theorem acyclic_of_forward (edges : List Edge) (l : List String)
    (h : ∀ e ∈ edges, idxOf l e.source < idxOf l e.target) :
    Acyclic edges := by
  intro a hcyc
  have hmono : ∀ x y : String, Relation.TransGen (edgeStep edges) x y →
      idxOf l x < idxOf l y := by
    intro x y hxy
    induction hxy with
    | single hstep =>
        obtain ⟨e, he, hs, ht⟩ := hstep
        have := h e he
        rwa [hs, ht] at this
    | tail _ hstep ihs =>
        obtain ⟨e, he, hs, ht⟩ := hstep
        have := h e he
        rw [hs, ht] at this
        omega
  exact lt_irrefl _ (hmono a a hcyc)

/-! ## From emitted ids back to nodes -/

theorem filterMap_find_map_id (nodes : List WorkflowNode) (l : List String) :
    (l.filterMap (fun id => nodes.find? (fun n => decide (n.id = id)))).map
        (·.id) =
      l.filter (fun id => (nodes.find? (fun n => decide (n.id = id))).isSome) := by
  induction l with
  | nil => rfl
  | cons k rest ihl =>
      simp only [List.filterMap_cons, List.filter_cons]
      cases hf : nodes.find? (fun n => decide (n.id = k)) with
      | none => simp [hf, ihl]
      | some a =>
          have ha : a.id = k := by
            have := List.find?_some hf
            simpa using this
          simp [hf, ihl, ha]

theorem find?_isSome_of_mem_ids (nodes : List WorkflowNode) (k : String)
    (h : k ∈ nodeIds nodes) :
    (nodes.find? (fun n => decide (n.id = k))).isSome := by
  rw [List.find?_isSome]
  obtain ⟨n, hn, hid⟩ := List.mem_map.mp h
  exact ⟨n, hn, by simp [hid]⟩

theorem topologicalEdgeSort_eq (nodes : List WorkflowNode) (edges : List Edge) :
    topologicalEdgeSort nodes edges =
      (kahnLoop (buildState nodes edges).graph (kahnFuel nodes edges)
        (buildState nodes edges).inDeg (initialQueue nodes edges) []).filterMap
        (fun id => nodes.find? (fun n => decide (n.id = id))) := rfl

/-! ## The initial state satisfies the loop invariant -/

theorem initialQueue_perm (nodes : List WorkflowNode) (edges : List Edge) :
    List.Perm (initialQueue nodes edges)
      ((sourceNodes nodes edges).map (·.id)) := by
  unfold initialQueue sortedSourceNodes
  exact (sortByKey_perm _ _).map _

theorem sourceNodes_sublist (nodes : List WorkflowNode) (edges : List Edge) :
    (sourceNodes nodes edges).Sublist nodes :=
  List.filter_sublist _

theorem initialQueue_nodup (nodes : List WorkflowNode) (edges : List Edge)
    (hn : (nodeIds nodes).Nodup) : (initialQueue nodes edges).Nodup := by
  have h1 : ((sourceNodes nodes edges).map (·.id)).Sublist (nodeIds nodes) :=
    (sourceNodes_sublist nodes edges).map _
  exact (initialQueue_perm nodes edges).nodup_iff.mpr (h1.nodup hn)

theorem mem_initialQueue (nodes : List WorkflowNode) (edges : List Edge)
    (k : String) :
    k ∈ initialQueue nodes edges ↔
      ∃ n ∈ sourceNodes nodes edges, n.id = k := by
  rw [(initialQueue_perm nodes edges).mem_iff, List.mem_map]

theorem sourceNodes_inCount (nodes : List WorkflowNode) (edges : List Edge)
    (n : WorkflowNode) (hmem : n ∈ sourceNodes nodes edges) :
    n ∈ nodes ∧ inCount edges n.id = 0 := by
  rw [sourceNodes_eq] at hmem
  rw [List.mem_filter] at hmem
  exact ⟨hmem.1, by simpa using hmem.2⟩

theorem mem_sourceNodes_of_inCount (nodes : List WorkflowNode)
    (edges : List Edge) (n : WorkflowNode) (hmem : n ∈ nodes)
    (hc : inCount edges n.id = 0) : n ∈ sourceNodes nodes edges := by
  rw [sourceNodes_eq, List.mem_filter]
  exact ⟨hmem, by simpa using hc⟩

theorem initial_measure_le (nodes : List WorkflowNode) (edges : List Edge) :
    kahnMeasure nodes edges (buildState nodes edges).inDeg
      (initialQueue nodes edges) ≤ kahnFuel nodes edges := by
  have h1 : (initialQueue nodes edges).length ≤ nodes.length := by
    have h2 := (initialQueue_perm nodes edges).length_eq
    rw [List.length_map] at h2
    rw [h2]
    exact (sourceNodes_sublist nodes edges).length_le
  have h3 : posCard nodes edges (buildState nodes edges).inDeg ≤
      nodes.length + edges.length := by
    unfold posCard
    refine le_trans (Finset.card_filter_le _ _) ?_
    unfold degKeys
    refine le_trans (List.toFinset_card_le _) ?_
    rw [List.length_append, List.length_map]
    unfold nodeIds
    rw [List.length_map]
  unfold kahnMeasure kahnFuel
  omega

/-- Master soundness statement about the ids emitted by
`topologicalEdgeSort` on a graph with distinct node ids and valid edge
endpoints: no duplicates, only known ids, topologically ordered, and any
missing id still has a pending (unemitted) predecessor. -/
theorem topSort_ids_spec (nodes : List WorkflowNode) (edges : List Edge)
    (hn : (nodeIds nodes).Nodup) (hv : validEdges nodes edges) :
    ((topologicalEdgeSort nodes edges).map (·.id)).Nodup ∧
    (∀ k ∈ (topologicalEdgeSort nodes edges).map (·.id), k ∈ nodeIds nodes) ∧
    OrderOK edges ((topologicalEdgeSort nodes edges).map (·.id)) ∧
    (∀ k ∈ nodeIds nodes, k ∉ (topologicalEdgeSort nodes edges).map (·.id) →
      pendingCount edges ((topologicalEdgeSort nodes edges).map (·.id)) k ≠ 0) := by
  have hloop := kahnLoop_inv nodes edges hv (kahnFuel nodes edges)
    (buildState nodes edges).inDeg (initialQueue nodes edges) [] ?_ ?_ ?_ ?_ ?_
    ?_ (initial_measure_le nodes edges)
  · obtain ⟨c1, c2, c3, c4⟩ := hloop
    have hmap : (topologicalEdgeSort nodes edges).map (·.id) =
        kahnLoop (buildState nodes edges).graph (kahnFuel nodes edges)
          (buildState nodes edges).inDeg (initialQueue nodes edges) [] := by
      rw [topologicalEdgeSort_eq, filterMap_find_map_id]
      apply List.filter_eq_self.mpr
      intro k hk
      exact find?_isSome_of_mem_ids nodes k (c2 k hk)
    rw [hmap]
    exact ⟨c1, c2, c3, c4⟩
  · simpa using initialQueue_nodup nodes edges hn
  · intro k hk
    simp only [List.nil_append] at hk
    obtain ⟨n, hns, hid⟩ := (mem_initialQueue nodes edges k).mp hk
    exact hid ▸ List.mem_map_of_mem _ (sourceNodes_inCount nodes edges n hns).1
  · intro k hk
    rw [buildState_inDeg]
    simp only [hk, true_or, if_true, pendingCount_nil]
  · intro k hk
    obtain ⟨n, hns, hid⟩ := (mem_initialQueue nodes edges k).mp hk
    rw [pendingCount_nil, ← hid]
    exact (sourceNodes_inCount nodes edges n hns).2
  · intro e _ ht
    exact absurd ht (List.not_mem_nil _)
  · intro k hk hkq
    simp only [List.nil_append] at hkq
    rw [pendingCount_nil]
    intro hc
    apply hkq
    obtain ⟨n, hns, hid⟩ := List.mem_map.mp hk
    rw [mem_initialQueue]
    refine ⟨n, ?_, hid⟩
    exact mem_sourceNodes_of_inCount nodes edges n hns (hid.symm ▸ hc)

/-- On an acyclic graph every node id is emitted. -/
theorem topSort_complete (nodes : List WorkflowNode) (edges : List Edge)
    (hn : (nodeIds nodes).Nodup) (hv : validEdges nodes edges)
    (ha : Acyclic edges) :
    ∀ k ∈ nodeIds nodes, k ∈ (topologicalEdgeSort nodes edges).map (·.id) := by
  by_contra hcon
  push_neg at hcon
  obtain ⟨k0, hk0, hk0n⟩ := hcon
  obtain ⟨_, _, _, hnonhit⟩ := topSort_ids_spec nodes edges hn hv
  set L := (topologicalEdgeSort nodes edges).map (·.id) with hL
  set N := (nodeIds nodes).filter (fun x => decide (x ∉ L)) with hN
  have hk0N : k0 ∈ N := by
    rw [hN, List.mem_filter]
    exact ⟨hk0, by simpa using hk0n⟩
  have hclosed : ∀ u ∈ N, ∃ v ∈ N, edgeStep edges v u := by
    intro u hu
    rw [hN, List.mem_filter] at hu
    obtain ⟨huid, hunotL⟩ := hu
    have hunotL2 : u ∉ L := by simpa using hunotL
    have hpend := hnonhit u huid hunotL2
    have hex : ∃ e ∈ edges, e.target = u ∧ e.source ∉ L := by
      by_contra hno
      push_neg at hno
      apply hpend
      unfold pendingCount
      rw [List.countP_eq_zero]
      intro e he
      simp only [decide_eq_true_eq, not_and]
      intro ht
      simp only [not_not]
      exact hno e he ht
    obtain ⟨e, he, ht, hs⟩ := hex
    refine ⟨e.source, ?_, ⟨e, he, rfl, ht⟩⟩
    rw [hN, List.mem_filter]
    exact ⟨(hv e he).1, by simpa using hs⟩
  obtain ⟨u, hu⟩ := exists_transGen_self N (List.ne_nil_of_mem hk0N) hclosed
  exact ha u hu

/-! ## Output-level facts -/

theorem topSort_ids_nodup (nodes : List WorkflowNode) (edges : List Edge)
    (hn : (nodeIds nodes).Nodup) :
    ((topologicalEdgeSort nodes edges).map (·.id)).Nodup := by
  have hL : (kahnLoop (buildState nodes edges).graph (kahnFuel nodes edges)
      (buildState nodes edges).inDeg (initialQueue nodes edges) []).Nodup := by
    apply kahnLoop_gen
    · simpa using initialQueue_nodup nodes edges hn
    · intro k hk
      simp only [List.nil_append] at hk
      obtain ⟨n, hns, hid⟩ := (mem_initialQueue nodes edges k).mp hk
      obtain ⟨hnn, hc⟩ := sourceNodes_inCount nodes edges n hns
      have : (buildState nodes edges).inDeg k = some ((inCount edges k : Int)) := by
        rw [buildState_inDeg]
        have : k ∈ nodeIds nodes := hid ▸ List.mem_map_of_mem _ hnn
        simp [this]
      rw [this]
      simp only [Option.getD_some]
      rw [← hid, hc]
      simp
  rw [topologicalEdgeSort_eq, filterMap_find_map_id]
  exact hL.filter _

theorem topSort_nodup (nodes : List WorkflowNode) (edges : List Edge)
    (hn : (nodeIds nodes).Nodup) : (topologicalEdgeSort nodes edges).Nodup :=
  (topSort_ids_nodup nodes edges hn).of_map

theorem topSort_subset (nodes : List WorkflowNode) (edges : List Edge) :
    ∀ n ∈ topologicalEdgeSort nodes edges, n ∈ nodes := by
  intro n hn
  rw [topologicalEdgeSort_eq] at hn
  obtain ⟨k, _, hfind⟩ := List.mem_filterMap.mp hn
  exact List.mem_of_find?_eq_some hfind

theorem topSort_perm (nodes : List WorkflowNode) (edges : List Edge)
    (hn : (nodeIds nodes).Nodup) (hv : validEdges nodes edges)
    (ha : Acyclic edges) :
    List.Perm (topologicalEdgeSort nodes edges) nodes := by
  have hout := topSort_nodup nodes edges hn
  have hnodes : nodes.Nodup := hn.of_map
  apply List.perm_of_nodup_nodup_toFinset_eq hout hnodes
  ext n
  simp only [List.mem_toFinset]
  constructor
  · intro hmem
    exact topSort_subset nodes edges n hmem
  · intro hmem
    have hid : n.id ∈ (topologicalEdgeSort nodes edges).map (·.id) :=
      topSort_complete nodes edges hn hv ha n.id (List.mem_map_of_mem _ hmem)
    obtain ⟨m, hm, hmid⟩ := List.mem_map.mp hid
    have hmn : m = n :=
      List.inj_on_of_nodup_map hn (topSort_subset nodes edges m hm) hmem hmid
    exact hmn ▸ hm

/-! ## Claim theorems: the topological sequencer -/

/-- C1: for every graph with distinct node ids, edges referencing existing
nodes, and an acyclic dependency relation, the order computed by
`topologicalEdgeSort` places every node after all of its predecessors: for
every edge `(s, t)`, both endpoints occur in the emitted order and the
index of `s` is strictly smaller than the index of `t`. -/
theorem c1_order_validity (nodes : List WorkflowNode) (edges : List Edge)
    (hn : (nodeIds nodes).Nodup) (hv : validEdges nodes edges)
    (ha : Acyclic edges) :
    ∀ e ∈ edges,
      e.source ∈ (topologicalEdgeSort nodes edges).map (·.id) ∧
      e.target ∈ (topologicalEdgeSort nodes edges).map (·.id) ∧
      idxOf ((topologicalEdgeSort nodes edges).map (·.id)) e.source <
        idxOf ((topologicalEdgeSort nodes edges).map (·.id)) e.target := by
  intro e he
  obtain ⟨_, _, hook, _⟩ := topSort_ids_spec nodes edges hn hv
  have htarget : e.target ∈ (topologicalEdgeSort nodes edges).map (·.id) :=
    topSort_complete nodes edges hn hv ha e.target (hv e he).2
  obtain ⟨hs, hlt⟩ := hook e he htarget
  exact ⟨hs, htarget, hlt⟩

/-- Witness for C1 at the diamond graph `a→b, a→c, b→d, c→d`. -/
theorem c1_order_validity_witness :
    ((nodeIds [⟨"a", .CLI, ⟨"A", none, none, none⟩⟩,
        ⟨"b", .CLI, ⟨"B", none, none, none⟩⟩,
        ⟨"c", .CLI, ⟨"C", none, none, none⟩⟩,
        ⟨"d", .CLI, ⟨"D", none, none, none⟩⟩]).Nodup ∧
      validEdges
        [⟨"a", .CLI, ⟨"A", none, none, none⟩⟩,
          ⟨"b", .CLI, ⟨"B", none, none, none⟩⟩,
          ⟨"c", .CLI, ⟨"C", none, none, none⟩⟩,
          ⟨"d", .CLI, ⟨"D", none, none, none⟩⟩]
        [⟨"e1", "a", "b"⟩, ⟨"e2", "a", "c"⟩, ⟨"e3", "b", "d"⟩,
          ⟨"e4", "c", "d"⟩]) ∧
    (∀ e ∈ [Edge.mk "e1" "a" "b", ⟨"e2", "a", "c"⟩, ⟨"e3", "b", "d"⟩,
        ⟨"e4", "c", "d"⟩],
      e.source ∈ (topologicalEdgeSort
        [⟨"a", .CLI, ⟨"A", none, none, none⟩⟩,
          ⟨"b", .CLI, ⟨"B", none, none, none⟩⟩,
          ⟨"c", .CLI, ⟨"C", none, none, none⟩⟩,
          ⟨"d", .CLI, ⟨"D", none, none, none⟩⟩]
        [⟨"e1", "a", "b"⟩, ⟨"e2", "a", "c"⟩, ⟨"e3", "b", "d"⟩,
          ⟨"e4", "c", "d"⟩]).map (·.id) ∧
      e.target ∈ (topologicalEdgeSort
        [⟨"a", .CLI, ⟨"A", none, none, none⟩⟩,
          ⟨"b", .CLI, ⟨"B", none, none, none⟩⟩,
          ⟨"c", .CLI, ⟨"C", none, none, none⟩⟩,
          ⟨"d", .CLI, ⟨"D", none, none, none⟩⟩]
        [⟨"e1", "a", "b"⟩, ⟨"e2", "a", "c"⟩, ⟨"e3", "b", "d"⟩,
          ⟨"e4", "c", "d"⟩]).map (·.id) ∧
      idxOf ((topologicalEdgeSort
        [⟨"a", .CLI, ⟨"A", none, none, none⟩⟩,
          ⟨"b", .CLI, ⟨"B", none, none, none⟩⟩,
          ⟨"c", .CLI, ⟨"C", none, none, none⟩⟩,
          ⟨"d", .CLI, ⟨"D", none, none, none⟩⟩]
        [⟨"e1", "a", "b"⟩, ⟨"e2", "a", "c"⟩, ⟨"e3", "b", "d"⟩,
          ⟨"e4", "c", "d"⟩]).map (·.id)) e.source <
        idxOf ((topologicalEdgeSort
          [⟨"a", .CLI, ⟨"A", none, none, none⟩⟩,
            ⟨"b", .CLI, ⟨"B", none, none, none⟩⟩,
            ⟨"c", .CLI, ⟨"C", none, none, none⟩⟩,
            ⟨"d", .CLI, ⟨"D", none, none, none⟩⟩]
          [⟨"e1", "a", "b"⟩, ⟨"e2", "a", "c"⟩, ⟨"e3", "b", "d"⟩,
            ⟨"e4", "c", "d"⟩]).map (·.id)) e.target) :=
  ⟨⟨by decide, by decide⟩,
    c1_order_validity _ _ (by decide) (by decide)
      (acyclic_of_forward _ ["a", "b", "c", "d"] (by decide))⟩

/-- C2 counterexample: on the two-node cycle `a→b→a`, `topologicalEdgeSort`
raises no error and returns the empty list — it silently produces a
partial order omitting both nodes, and never constructs a `CyclicGraph`
failure (its return type carries no error at all).  The claimed behaviour
(failing with `CyclicGraph`, not returning a partial order) is therefore
false of the sequencer in the source. -/
theorem c2_counterexample :
    topologicalEdgeSort
        [⟨"a", .CLI, ⟨"A", none, none, none⟩⟩,
          ⟨"b", .CLI, ⟨"B", none, none, none⟩⟩]
        [⟨"e1", "a", "b"⟩, ⟨"e2", "b", "a"⟩] = [] ∧
    (topologicalEdgeSort
        [⟨"a", .CLI, ⟨"A", none, none, none⟩⟩,
          ⟨"b", .CLI, ⟨"B", none, none, none⟩⟩]
        [⟨"e1", "a", "b"⟩, ⟨"e2", "b", "a"⟩]).length < 2 := by
  constructor
  · decide
  · decide

/-- C2 amended: on a graph with distinct node ids and valid edge endpoints
that contains a dependency cycle, `topologicalEdgeSort` silently returns a
partial order: every node lying on a cycle is omitted, so the returned
list is strictly shorter than the node list; no error value exists. -/
theorem c2_cycle_nodes_silently_omitted (nodes : List WorkflowNode)
    (edges : List Edge) (hn : (nodeIds nodes).Nodup)
    (hv : validEdges nodes edges) (a : String) (hmem : a ∈ nodeIds nodes)
    (hcyc : Relation.TransGen (edgeStep edges) a a) :
    a ∉ (topologicalEdgeSort nodes edges).map (·.id) ∧
    (topologicalEdgeSort nodes edges).length < nodes.length := by
  obtain ⟨hnd, hsub, hook, _⟩ := topSort_ids_spec nodes edges hn hv
  have hmono : ∀ x y : String, Relation.TransGen (edgeStep edges) x y →
      y ∈ (topologicalEdgeSort nodes edges).map (·.id) →
      x ∈ (topologicalEdgeSort nodes edges).map (·.id) ∧
        idxOf ((topologicalEdgeSort nodes edges).map (·.id)) x <
          idxOf ((topologicalEdgeSort nodes edges).map (·.id)) y := by
    intro x y hxy
    induction hxy with
    | single hstep =>
        obtain ⟨e, he, hs, ht⟩ := hstep
        intro hy
        have h1 := hook e he (ht ▸ hy)
        rw [hs, ht] at h1
        exact h1
    | tail _ hstep ihs =>
        rename_i b c _
        obtain ⟨e, he, hs, ht⟩ := hstep
        intro hy
        have h1 := hook e he (ht ▸ hy)
        rw [hs, ht] at h1
        have h2 := ihs h1.1
        exact ⟨h2.1, lt_trans h2.2 h1.2⟩
  have hnotin : a ∉ (topologicalEdgeSort nodes edges).map (·.id) := by
    intro hmemL
    have := (hmono a a hcyc hmemL).2
    exact lt_irrefl _ this
  refine ⟨hnotin, ?_⟩
  have hcard1 : ((topologicalEdgeSort nodes edges).map (·.id)).toFinset ⊆
      (nodeIds nodes).toFinset.erase a := by
    intro k hk
    rw [List.mem_toFinset] at hk
    rw [Finset.mem_erase, List.mem_toFinset]
    refine ⟨?_, hsub k hk⟩
    intro hka
    exact hnotin (hka ▸ hk)
  have hcard2 := Finset.card_le_card hcard1
  rw [List.toFinset_card_of_nodup hnd] at hcard2
  have hcard3 : ((nodeIds nodes).toFinset.erase a).card =
      (nodeIds nodes).toFinset.card - 1 :=
    Finset.card_erase_of_mem (List.mem_toFinset.mpr hmem)
  rw [hcard3, List.toFinset_card_of_nodup hn] at hcard2
  have hpos : 0 < (nodeIds nodes).length := List.length_pos.mpr
    (List.ne_nil_of_mem hmem)
  have hlen1 : ((topologicalEdgeSort nodes edges).map (·.id)).length =
      (topologicalEdgeSort nodes edges).length := List.length_map _ _
  have hlen2 : (nodeIds nodes).length = nodes.length := List.length_map _ _
  omega

/-- Witness for the amended C2 at the two-node cycle. -/
theorem c2_cycle_nodes_silently_omitted_witness :
    ((nodeIds [⟨"a", .CLI, ⟨"A", none, none, none⟩⟩,
        ⟨"b", .CLI, ⟨"B", none, none, none⟩⟩]).Nodup ∧
      validEdges
        [⟨"a", .CLI, ⟨"A", none, none, none⟩⟩,
          ⟨"b", .CLI, ⟨"B", none, none, none⟩⟩]
        [⟨"e1", "a", "b"⟩, ⟨"e2", "b", "a"⟩]) ∧
    ("a" ∉ (topologicalEdgeSort
        [⟨"a", .CLI, ⟨"A", none, none, none⟩⟩,
          ⟨"b", .CLI, ⟨"B", none, none, none⟩⟩]
        [⟨"e1", "a", "b"⟩, ⟨"e2", "b", "a"⟩]).map (·.id) ∧
      (topologicalEdgeSort
        [⟨"a", .CLI, ⟨"A", none, none, none⟩⟩,
          ⟨"b", .CLI, ⟨"B", none, none, none⟩⟩]
        [⟨"e1", "a", "b"⟩, ⟨"e2", "b", "a"⟩]).length < 2) :=
  ⟨⟨by decide, by decide⟩,
    c2_cycle_nodes_silently_omitted _ _ (by decide) (by decide) "a" (by decide)
      (Relation.TransGen.head
        ⟨⟨"e1", "a", "b"⟩, by decide, rfl, rfl⟩
        (Relation.TransGen.single
          ⟨⟨"e2", "b", "a"⟩, by decide, rfl, rfl⟩))⟩

/-- C9: for a node list with distinct ids and an arbitrary edge list, the
output of `topologicalEdgeSort` has no duplicates and draws only from the
input nodes; the empty graph yields the empty order; and on an acyclic
graph with valid edges the output is a permutation of the nodes. -/
theorem c9_output_well_formed (nodes : List WorkflowNode) (edges : List Edge)
    (hn : (nodeIds nodes).Nodup) :
    (topologicalEdgeSort nodes edges).Nodup ∧
    (∀ n ∈ topologicalEdgeSort nodes edges, n ∈ nodes) ∧
    topologicalEdgeSort [] [] = [] ∧
    (validEdges nodes edges → Acyclic edges →
      List.Perm (topologicalEdgeSort nodes edges) nodes) :=
  ⟨topSort_nodup nodes edges hn, topSort_subset nodes edges, rfl,
    fun hv ha => topSort_perm nodes edges hn hv ha⟩

/-- Witness for C9 at a three-node graph with one dangling edge and one
real edge. -/
theorem c9_output_well_formed_witness :
    (nodeIds [⟨"a", .CLI, ⟨"A", none, none, none⟩⟩,
        ⟨"b", .CLI, ⟨"B", none, none, none⟩⟩]).Nodup ∧
    ((topologicalEdgeSort
        [⟨"a", .CLI, ⟨"A", none, none, none⟩⟩,
          ⟨"b", .CLI, ⟨"B", none, none, none⟩⟩]
        [⟨"e1", "a", "b"⟩, ⟨"e2", "ghost", "b"⟩]).Nodup ∧
      (∀ n ∈ topologicalEdgeSort
          [⟨"a", .CLI, ⟨"A", none, none, none⟩⟩,
            ⟨"b", .CLI, ⟨"B", none, none, none⟩⟩]
          [⟨"e1", "a", "b"⟩, ⟨"e2", "ghost", "b"⟩],
        n ∈ [⟨"a", .CLI, ⟨"A", none, none, none⟩⟩,
          ⟨"b", .CLI, ⟨"B", none, none, none⟩⟩]) ∧
      topologicalEdgeSort [] [] = [] ∧
      (validEdges
          [⟨"a", .CLI, ⟨"A", none, none, none⟩⟩,
            ⟨"b", .CLI, ⟨"B", none, none, none⟩⟩]
          [⟨"e1", "a", "b"⟩, ⟨"e2", "ghost", "b"⟩] →
        Acyclic [⟨"e1", "a", "b"⟩, ⟨"e2", "ghost", "b"⟩] →
        List.Perm
          (topologicalEdgeSort
            [⟨"a", .CLI, ⟨"A", none, none, none⟩⟩,
              ⟨"b", .CLI, ⟨"B", none, none, none⟩⟩]
            [⟨"e1", "a", "b"⟩, ⟨"e2", "ghost", "b"⟩])
          [⟨"a", .CLI, ⟨"A", none, none, none⟩⟩,
            ⟨"b", .CLI, ⟨"B", none, none, none⟩⟩])) :=
  ⟨by decide,
    c9_output_well_formed
      [⟨"a", .CLI, ⟨"A", none, none, none⟩⟩,
        ⟨"b", .CLI, ⟨"B", none, none, none⟩⟩]
      [⟨"e1", "a", "b"⟩, ⟨"e2", "ghost", "b"⟩] (by decide)⟩

/-! ## Claim theorems: the seed queue (C3) -/

/-- A node's `firstEdgeIndex` is `-1` exactly when it has no outgoing
edge. -/
theorem firstEdgeIndex_eq_neg_one (edges : List Edge) (nid : String) :
    firstEdgeIndex edges nid = -1 ↔ ∀ e ∈ edges, e.source ≠ nid := by
  unfold firstEdgeIndex
  cases hf : edges.findIdx? (fun e => decide (e.source = nid)) with
  | none =>
      simp only [List.findIdx?_eq_none_iff] at hf
      constructor
      · intro _ e he
        have := hf e he
        simpa using this
      · intro _
        rfl
  | some i =>
      simp only []
      constructor
      · intro hcon
        omega
      · intro hall
        exfalso
        have hsome : (edges.findIdx? (fun e => decide (e.source = nid))).isSome := by
          rw [hf]
          rfl
        rw [List.findIdx?_isSome] at hsome
        simp only [List.any_eq_true, decide_eq_true_eq] at hsome
        obtain ⟨e, he, hs⟩ := hsome
        exact hall e he hs

theorem firstEdgeIndex_ge_neg_one (edges : List Edge) (nid : String) :
    -1 ≤ firstEdgeIndex edges nid := by
  unfold firstEdgeIndex
  cases hf : edges.findIdx? (fun e => decide (e.source = nid)) with
  | none => simp
  | some i =>
      simp only []
      omega

/-- C3 counterexample: nodes `a, b, c` with the single edge `a→c`.  Both
`a` and `b` have in-degree 0; `b` has no outgoing edge, so the claim
requires the seed queue `[a, b]` (no-outgoing nodes last).  The code's
`findIndex` returns `-1` for `b`, and the ascending comparator sort
therefore places `b` first: the queue is `[b, a]`. -/
theorem c3_counterexample :
    initialQueue
        [⟨"a", .CLI, ⟨"A", none, none, none⟩⟩,
          ⟨"b", .CLI, ⟨"B", none, none, none⟩⟩,
          ⟨"c", .CLI, ⟨"C", none, none, none⟩⟩]
        [⟨"e1", "a", "c"⟩] = ["b", "a"] ∧
    initialQueue
        [⟨"a", .CLI, ⟨"A", none, none, none⟩⟩,
          ⟨"b", .CLI, ⟨"B", none, none, none⟩⟩,
          ⟨"c", .CLI, ⟨"C", none, none, none⟩⟩]
        [⟨"e1", "a", "c"⟩] ≠ ["a", "b"] := by
  constructor
  · decide
  · decide

/-- C3 amended: the seed queue contains exactly the in-degree-0 nodes,
sorted in ascending order of the position of each node's first outgoing
edge in the edge list, where a node with no outgoing edge has position
`-1` and therefore comes first (not last); nodes with equal positions — in
particular all the no-outgoing-edge nodes — keep their relative order from
the node list (the sort is stable). -/
theorem c3_seed_queue_characterisation (nodes : List WorkflowNode)
    (edges : List Edge) :
    List.Perm (sortedSourceNodes nodes edges) (sourceNodes nodes edges) ∧
    sourceNodes nodes edges =
      nodes.filter (fun n => decide (inCount edges n.id = 0)) ∧
    (sortedSourceNodes nodes edges).Pairwise
      (fun a b => firstEdgeIndex edges a.id ≤ firstEdgeIndex edges b.id) ∧
    (∀ c : Int, (sortedSourceNodes nodes edges).filter
        (fun n => decide (firstEdgeIndex edges n.id = c)) =
      (sourceNodes nodes edges).filter
        (fun n => decide (firstEdgeIndex edges n.id = c))) ∧
    (∀ nid : String,
      (firstEdgeIndex edges nid = -1 ↔ ∀ e ∈ edges, e.source ≠ nid) ∧
      -1 ≤ firstEdgeIndex edges nid) ∧
    initialQueue nodes edges = (sortedSourceNodes nodes edges).map (·.id) := by
  refine ⟨sortByKey_perm _ _, sourceNodes_eq nodes edges, ?_, ?_, ?_, rfl⟩
  · exact sortByKey_sorted _ _
  · intro c
    exact sortByKey_filter (fun n => firstEdgeIndex edges n.id)
      (sourceNodes nodes edges) c
  · intro nid
    exact ⟨firstEdgeIndex_eq_neg_one edges nid,
      firstEdgeIndex_ge_neg_one edges nid⟩

/-! ## `updateEdgeOrder` (Flow.tsx lines 222–240) and
`edgesWithOrder` (lines 246–256) -/

/-- `Map.set` on an association list with JavaScript `Map` semantics:
overwrite in place when the key exists, append otherwise. -/
def mapSet2 (m : List (String × Nat)) (k : String) (v : Nat) :
    List (String × Nat) :=
  if (m.find? (fun p => decide (p.1 = k))).isSome then
    m.map (fun p => if p.1 = k then (k, v) else p)
  else m ++ [(k, v)]

/-- `Map.get` on an association list. -/
def mapGet2 (m : List (String × Nat)) (k : String) : Option Nat :=
  (m.find? (fun p => decide (p.1 = k))).map (·.2)

/-- `updateEdgeOrder` (lines 222–240): walk the topologically sorted
nodes; for each node take its outgoing edges in edge-list order
(`edges.filter(edge => edge.source === node.id)`) and assign
`sequentialNumber++` (starting at 1) to each edge id. -/
def updateEdgeOrder (nodes : List WorkflowNode) (edges : List Edge) :
    List (String × Nat) :=
  ((topologicalEdgeSort nodes edges).foldl
    (fun acc node =>
      (edges.filter (fun e => decide (e.source = node.id))).foldl
        (fun acc2 e => (mapSet2 acc2.1 e.id acc2.2, acc2.2 + 1)) acc)
    ([], 1)).1

/-- `edgesWithOrder` (lines 246–256): every edge is handed to rendering
with `orderNumber = edgeOrder.get(edge.id) || 0`. -/
def edgesWithOrder (nodes : List WorkflowNode) (edges : List Edge) :
    List (Edge × Nat) :=
  edges.map (fun e => (e, (mapGet2 (updateEdgeOrder nodes edges) e.id).getD 0))

/-- Consecutive numbering of a key list starting at `n`. -/
def numberFrom (n : Nat) : List String → List (String × Nat)
  | [] => []
  | k :: ks => (k, n) :: numberFrom (n + 1) ks

/-- Edge ids in the order `updateEdgeOrder` walks them: grouped by source
node in execution order, in edge-list order within a group. -/
def orderedEdgeIds (nodes : List WorkflowNode) (edges : List Edge) :
    List String :=
  (topologicalEdgeSort nodes edges).flatMap
    (fun node =>
      (edges.filter (fun e => decide (e.source = node.id))).map (·.id))

theorem numberFrom_keys (n : Nat) (ks : List String) :
    (numberFrom n ks).map (·.1) = ks := by
  induction ks generalizing n with
  | nil => rfl
  | cons k ks ihk => simp [numberFrom, ihk]

theorem numberFrom_values (n : Nat) (ks : List String) :
    (numberFrom n ks).map (·.2) = List.range' n ks.length := by
  induction ks generalizing n with
  | nil => rfl
  | cons k ks ihk => simp [numberFrom, ihk, List.range'_succ]

theorem numberFrom_append (n : Nat) (l1 l2 : List String) :
    numberFrom n (l1 ++ l2) =
      numberFrom n l1 ++ numberFrom (n + l1.length) l2 := by
  induction l1 generalizing n with
  | nil => simp [numberFrom]
  | cons k ks ihk =>
      simp only [List.cons_append, numberFrom, List.append_eq, ihk,
        List.length_cons]
      have h1 : n + 1 + ks.length = n + (ks.length + 1) := by omega
      rw [h1]

theorem numberFrom_value_ge (n : Nat) (ks : List String) :
    ∀ p ∈ numberFrom n ks, n ≤ p.2 := by
  induction ks generalizing n with
  | nil => intro p hp; cases hp
  | cons k ks ihk =>
      intro p hp
      rcases List.mem_cons.mp hp with h | h
      · rw [h]
      · exact le_trans (Nat.le_succ n) (ihk (n + 1) p h)

theorem mapSet2_fresh (m : List (String × Nat)) (k : String) (v : Nat)
    (h : ∀ p ∈ m, p.1 ≠ k) : mapSet2 m k v = m ++ [(k, v)] := by
  unfold mapSet2
  have hf : m.find? (fun p => decide (p.1 = k)) = none := by
    rw [List.find?_eq_none]
    intro p hp
    simpa using h p hp
  rw [hf]
  rfl

theorem foldl_number_append (es : List Edge) :
    ∀ (acc : List (String × Nat)) (n : Nat),
      (∀ e ∈ es, ∀ p ∈ acc, p.1 ≠ e.id) →
      (es.map (·.id)).Nodup →
      es.foldl (fun acc2 e => (mapSet2 acc2.1 e.id acc2.2, acc2.2 + 1))
        (acc, n) =
      (acc ++ numberFrom n (es.map (·.id)), n + es.length) := by
  induction es with
  | nil => intro acc n _ _; simp [numberFrom]
  | cons e es ihe =>
      intro acc n hfresh hnodup
      simp only [List.foldl_cons]
      rw [mapSet2_fresh acc e.id n (hfresh e (List.mem_cons_self _ _))]
      have hnodup2 : (es.map (·.id)).Nodup := by
        simp only [List.map_cons, List.nodup_cons] at hnodup
        exact hnodup.2
      have hid : e.id ∉ es.map (·.id) := by
        simp only [List.map_cons, List.nodup_cons] at hnodup
        exact hnodup.1
      rw [ihe (acc ++ [(e.id, n)]) (n + 1) ?_ hnodup2]
      · simp only [List.map_cons, numberFrom, List.length_cons]
        rw [List.append_assoc]
        have h1 : n + 1 + es.length = n + (es.length + 1) := by omega
        rw [h1]
        rfl
      · intro e2 he2 p hp
        rcases List.mem_append.mp hp with h | h
        · exact hfresh e2 (List.mem_cons_of_mem _ he2) p h
        · rw [List.mem_singleton.mp h]
          intro hcon
          simp only at hcon
          exact hid (hcon ▸ List.mem_map_of_mem _ he2)

theorem foldl_nodes_number (edges : List Edge)
    (he : (edges.map (·.id)).Nodup) :
    ∀ (sorted : List WorkflowNode) (acc : List (String × Nat)) (n : Nat),
      ((sorted.map (·.id)).Nodup) →
      (∀ node ∈ sorted,
        ∀ e ∈ edges.filter (fun e => decide (e.source = node.id)),
        ∀ p ∈ acc, p.1 ≠ e.id) →
      sorted.foldl
        (fun acc2 node =>
          (edges.filter (fun e => decide (e.source = node.id))).foldl
            (fun acc3 e => (mapSet2 acc3.1 e.id acc3.2, acc3.2 + 1)) acc2)
        (acc, n) =
      (acc ++ numberFrom n (sorted.flatMap (fun node =>
          (edges.filter (fun e => decide (e.source = node.id))).map (·.id))),
        n + (sorted.flatMap (fun node =>
          (edges.filter (fun e => decide (e.source = node.id))).map
            (·.id))).length) := by
  intro sorted
  induction sorted with
  | nil => intro acc n _ _; simp [numberFrom]
  | cons node rest ihs =>
      intro acc n hnodup hfresh
      have hinner := foldl_number_append
        (edges.filter (fun e => decide (e.source = node.id))) acc n
        (fun e hee p hp => hfresh node (List.mem_cons_self _ _) e hee p hp)
        ?_
      · simp only [List.foldl_cons]
        rw [hinner]
        have hrest := ihs (acc ++ numberFrom n
          ((edges.filter (fun e => decide (e.source = node.id))).map (·.id)))
          (n + (edges.filter (fun e => decide (e.source = node.id))).length)
          ?_ ?_
        · rw [hrest]
          simp only [List.flatMap_cons, numberFrom_append, List.length_append,
            List.length_map, List.append_assoc, Prod.mk.injEq]
          exact ⟨trivial, by omega⟩
        · simp only [List.map_cons, List.nodup_cons] at hnodup
          exact hnodup.2
        · intro node1 hnode1 e hee p hp
          rcases List.mem_append.mp hp with h | h
          · exact hfresh node1 (List.mem_cons_of_mem _ hnode1) e hee p h
          · -- `p` was just numbered from an edge of `node`; an edge of a
            -- later node has a different id because edge ids are distinct
            -- and the two source ids differ.
            have hp1 : p.1 ∈ (edges.filter
                (fun e => decide (e.source = node.id))).map (·.id) := by
              have hkeys := numberFrom_keys n ((edges.filter
                (fun e => decide (e.source = node.id))).map (·.id))
              rw [← hkeys]
              exact List.mem_map_of_mem _ h
            obtain ⟨e0, he0, he0id⟩ := List.mem_map.mp hp1
            rw [← he0id]
            intro hcon
            have he0mem : e0 ∈ edges := (List.mem_filter.mp he0).1
            have hemem : e ∈ edges := (List.mem_filter.mp hee).1
            have heq : e0 = e := List.inj_on_of_nodup_map he he0mem hemem hcon
            have hs0 : e0.source = node.id := by
              have := (List.mem_filter.mp he0).2
              simpa using this
            have hs1 : e.source = node1.id := by
              have := (List.mem_filter.mp hee).2
              simpa using this
            have hne : node.id ≠ node1.id := by
              simp only [List.map_cons, List.nodup_cons] at hnodup
              intro hcon2
              exact hnodup.1 (hcon2 ▸ List.mem_map_of_mem _ hnode1)
            rw [heq, hs1] at hs0
            exact hne hs0.symm
      · have hsub : ((edges.filter
            (fun e => decide (e.source = node.id))).map (·.id)).Sublist
            (edges.map (·.id)) :=
          (List.filter_sublist edges).map _
        exact hsub.nodup he

theorem updateEdgeOrder_eq (nodes : List WorkflowNode) (edges : List Edge)
    (hn : (nodeIds nodes).Nodup) (he : (edges.map (·.id)).Nodup) :
    updateEdgeOrder nodes edges = numberFrom 1 (orderedEdgeIds nodes edges) := by
  unfold updateEdgeOrder orderedEdgeIds
  rw [foldl_nodes_number edges he (topologicalEdgeSort nodes edges) [] 1
    (topSort_ids_nodup nodes edges hn)
    (fun node _ e _ p hp => absurd hp (List.not_mem_nil p))]
  simp

/-! ## Claim theorems: edge numbering (C6, C10, C7) -/

/-- C6: with distinct node and edge ids, walking the computed execution
order and numbering each node's outgoing edges (in original edge-list
order) with consecutive integers starting at 1 is exactly what
`updateEdgeOrder` computes; the assigned numbers are `1, 2, …` in walk
order, hence pairwise distinct and positive. -/
theorem c6_edge_sequence_numbers (nodes : List WorkflowNode)
    (edges : List Edge) (hn : (nodeIds nodes).Nodup)
    (he : (edges.map (·.id)).Nodup) :
    updateEdgeOrder nodes edges = numberFrom 1 (orderedEdgeIds nodes edges) ∧
    (updateEdgeOrder nodes edges).map (·.2) =
      List.range' 1 (orderedEdgeIds nodes edges).length ∧
    ((updateEdgeOrder nodes edges).map (·.2)).Nodup ∧
    (∀ p ∈ updateEdgeOrder nodes edges, 1 ≤ p.2) := by
  have h1 := updateEdgeOrder_eq nodes edges hn he
  refine ⟨h1, ?_, ?_, ?_⟩
  · rw [h1, numberFrom_values]
  · rw [h1, numberFrom_values]
    exact List.nodup_range' 1 _
  · rw [h1]
    exact numberFrom_value_ge 1 _

/-- Witness for C6 at the diamond graph. -/
theorem c6_edge_sequence_numbers_witness :
    ((nodeIds [⟨"a", .CLI, ⟨"A", none, none, none⟩⟩,
        ⟨"b", .CLI, ⟨"B", none, none, none⟩⟩,
        ⟨"c", .CLI, ⟨"C", none, none, none⟩⟩,
        ⟨"d", .CLI, ⟨"D", none, none, none⟩⟩]).Nodup ∧
      (([Edge.mk "e1" "a" "b", ⟨"e2", "a", "c"⟩, ⟨"e3", "b", "d"⟩,
        ⟨"e4", "c", "d"⟩]).map (·.id)).Nodup) ∧
    updateEdgeOrder
        [⟨"a", .CLI, ⟨"A", none, none, none⟩⟩,
          ⟨"b", .CLI, ⟨"B", none, none, none⟩⟩,
          ⟨"c", .CLI, ⟨"C", none, none, none⟩⟩,
          ⟨"d", .CLI, ⟨"D", none, none, none⟩⟩]
        [⟨"e1", "a", "b"⟩, ⟨"e2", "a", "c"⟩, ⟨"e3", "b", "d"⟩,
          ⟨"e4", "c", "d"⟩] =
      numberFrom 1 (orderedEdgeIds
        [⟨"a", .CLI, ⟨"A", none, none, none⟩⟩,
          ⟨"b", .CLI, ⟨"B", none, none, none⟩⟩,
          ⟨"c", .CLI, ⟨"C", none, none, none⟩⟩,
          ⟨"d", .CLI, ⟨"D", none, none, none⟩⟩]
        [⟨"e1", "a", "b"⟩, ⟨"e2", "a", "c"⟩, ⟨"e3", "b", "d"⟩,
          ⟨"e4", "c", "d"⟩]) :=
  ⟨⟨by decide, by decide⟩,
    (c6_edge_sequence_numbers _ _ (by decide) (by decide)).1⟩

theorem mapGet2_eq_some_mem (m : List (String × Nat)) (k : String) (v : Nat)
    (h : mapGet2 m k = some v) : (k, v) ∈ m := by
  unfold mapGet2 at h
  cases hf : m.find? (fun p => decide (p.1 = k)) with
  | none => rw [hf] at h; cases h
  | some p =>
      rw [hf] at h
      have hv : p.2 = v := by simpa using h
      have hp1 : p.1 = k := by
        have := List.find?_some hf
        simpa using this
      have hpm : p ∈ m := List.mem_of_find?_eq_some hf
      have : p = (k, v) := by
        rw [Prod.ext_iff]
        exact ⟨hp1, hv⟩
      exact this ▸ hpm

/-- C10: every edge handed to rendering carries an `orderNumber`; an edge
whose id was assigned a sequence number keeps that number (a positive
integer recorded in the order map), and an edge with no assigned number
gets `orderNumber = 0`, which therefore never collides with an assigned
number. -/
theorem c10_order_numbers (nodes : List WorkflowNode) (edges : List Edge)
    (hn : (nodeIds nodes).Nodup) (he : (edges.map (·.id)).Nodup) :
    (edgesWithOrder nodes edges).map (·.1) = edges ∧
    ∀ pe ∈ edgesWithOrder nodes edges,
      (1 ≤ pe.2 ∧ (pe.1.id, pe.2) ∈ updateEdgeOrder nodes edges) ∨
      (pe.2 = 0 ∧ mapGet2 (updateEdgeOrder nodes edges) pe.1.id = none) := by
  constructor
  · unfold edgesWithOrder
    rw [List.map_map]
    exact List.map_id _
  · intro pe hpe
    obtain ⟨e, hee, hpe2⟩ := List.mem_map.mp hpe
    cases hg : mapGet2 (updateEdgeOrder nodes edges) e.id with
    | none =>
        right
        rw [← hpe2]
        simp [hg]
    | some v =>
        left
        have hmem : (e.id, v) ∈ updateEdgeOrder nodes edges :=
          mapGet2_eq_some_mem _ _ _ hg
        have hge : 1 ≤ v := by
          have h1 := updateEdgeOrder_eq nodes edges hn he
          rw [h1] at hmem
          exact numberFrom_value_ge 1 _ (e.id, v) hmem
        rw [← hpe2]
        simp only [hg, Option.getD_some]
        exact ⟨hge, hmem⟩

/-- Witness for C10 at the diamond graph extended with an edge from an
unknown node (which receives no sequence number, hence order number 0). -/
theorem c10_order_numbers_witness :
    ((nodeIds [⟨"a", .CLI, ⟨"A", none, none, none⟩⟩,
        ⟨"b", .CLI, ⟨"B", none, none, none⟩⟩]).Nodup ∧
      (([Edge.mk "e1" "a" "b", ⟨"e2", "ghost", "b"⟩]).map (·.id)).Nodup) ∧
    ((edgesWithOrder
        [⟨"a", .CLI, ⟨"A", none, none, none⟩⟩,
          ⟨"b", .CLI, ⟨"B", none, none, none⟩⟩]
        [⟨"e1", "a", "b"⟩, ⟨"e2", "ghost", "b"⟩]).map (·.1) =
      [⟨"e1", "a", "b"⟩, ⟨"e2", "ghost", "b"⟩] ∧
    ∀ pe ∈ edgesWithOrder
        [⟨"a", .CLI, ⟨"A", none, none, none⟩⟩,
          ⟨"b", .CLI, ⟨"B", none, none, none⟩⟩]
        [⟨"e1", "a", "b"⟩, ⟨"e2", "ghost", "b"⟩],
      (1 ≤ pe.2 ∧ (pe.1.id, pe.2) ∈ updateEdgeOrder
        [⟨"a", .CLI, ⟨"A", none, none, none⟩⟩,
          ⟨"b", .CLI, ⟨"B", none, none, none⟩⟩]
        [⟨"e1", "a", "b"⟩, ⟨"e2", "ghost", "b"⟩]) ∨
      (pe.2 = 0 ∧ mapGet2 (updateEdgeOrder
        [⟨"a", .CLI, ⟨"A", none, none, none⟩⟩,
          ⟨"b", .CLI, ⟨"B", none, none, none⟩⟩]
        [⟨"e1", "a", "b"⟩, ⟨"e2", "ghost", "b"⟩]) pe.1.id = none)) :=
  ⟨⟨by decide, by decide⟩,
    c10_order_numbers _ _ (by decide) (by decide)⟩

/-- C7: the sequencer and edge-numbering pass are pure functions of the
node and edge lists: two invocations on equal inputs yield an identical
node order and identical edge sequence numbers.  (The only potential
nondeterminism in the source, the comparator `sort`, is fixed by the
ECMAScript guarantee of stability, which the embedding realises as a
deterministic stable sort.) -/
theorem c7_sequencer_deterministic (n1 n2 : List WorkflowNode)
    (e1 e2 : List Edge) (hn : n1 = n2) (he : e1 = e2) :
    topologicalEdgeSort n1 e1 = topologicalEdgeSort n2 e2 ∧
    updateEdgeOrder n1 e1 = updateEdgeOrder n2 e2 := by
  subst hn
  subst he
  exact ⟨rfl, rfl⟩

/-- Witness for C7 at the two-node chain. -/
theorem c7_sequencer_deterministic_witness :
    topologicalEdgeSort
        [⟨"a", .CLI, ⟨"A", none, none, none⟩⟩,
          ⟨"b", .CLI, ⟨"B", none, none, none⟩⟩] [⟨"e1", "a", "b"⟩] =
      topologicalEdgeSort
        [⟨"a", .CLI, ⟨"A", none, none, none⟩⟩,
          ⟨"b", .CLI, ⟨"B", none, none, none⟩⟩] [⟨"e1", "a", "b"⟩] ∧
    updateEdgeOrder
        [⟨"a", .CLI, ⟨"A", none, none, none⟩⟩,
          ⟨"b", .CLI, ⟨"B", none, none, none⟩⟩] [⟨"e1", "a", "b"⟩] =
      updateEdgeOrder
        [⟨"a", .CLI, ⟨"A", none, none, none⟩⟩,
          ⟨"b", .CLI, ⟨"B", none, none, none⟩⟩] [⟨"e1", "a", "b"⟩] :=
  c7_sequencer_deterministic _ _ _ _ rfl rfl

/-! ## Pre-run validation (`onExecute`, Flow.tsx lines 166–200) -/

/-- Drop leading whitespace characters. -/
def dropLeadingWs : List Char → List Char
  | [] => []
  | c :: cs => if c.isWhitespace then dropLeadingWs cs else c :: cs

/-- JavaScript `String.prototype.trim`, embedded structurally: drop
leading and trailing whitespace.  (Lean's own `String.trim` is defined by
well-founded recursion and does not evaluate inside the kernel.) -/
def jsTrim (s : String) : String :=
  ⟨(dropLeadingWs (dropLeadingWs s.data.reverse).reverse)⟩

/-- The validation filter (lines 168–173): only `LLM` nodes are tested —
for a missing (`undefined`), empty (falsy), or whitespace-only prompt
(`prompt.trim() === ''`); every other node kind, `CLI` included, returns
`false` and is never flagged. -/
def invalidNodes (nodes : List WorkflowNode) : List WorkflowNode :=
  nodes.filter (fun n =>
    match n.type with
    | NodeType.LLM =>
        match n.data.prompt with
        | none => true
        | some s => decide (s = "") || decide (jsTrim s = "")
    | _ => false)

/-- The error message chosen per invalid node (lines 179–181). -/
def errorMessageFor (n : WorkflowNode) : String :=
  if n.type = NodeType.CLI then "Command field is required"
  else "Prompt field is required"

/-- Outcome of pressing execute: either the run is rejected with per-node
error messages and no `execute_workflow` message is posted, or the
message is posted with the graph. -/
inductive ExecuteOutcome where
  | rejected (errors : List (String × String))
  | started (nodes : List WorkflowNode) (edges : List Edge)
deriving DecidableEq, Repr

/-- `onExecute` (lines 166–200): when some node fails validation, record
an error message per offending node id and return before posting;
otherwise clear errors and post `execute_workflow` with the graph. -/
def onExecute (nodes : List WorkflowNode) (edges : List Edge) :
    ExecuteOutcome :=
  if 0 < (invalidNodes nodes).length then
    ExecuteOutcome.rejected
      ((invalidNodes nodes).map (fun n => (n.id, errorMessageFor n)))
  else ExecuteOutcome.started nodes edges

/-- C4 (code bug): pre-run validation does NOT reject a `Command` (CLI)
node with empty command text — the filter only inspects `LLM` nodes, so
the run starts and the `execute_workflow` message is posted (first
conjunct; the dead `'Command field is required'` branch in the source
shows CLI validation was intended).  The Generate half of the claim does
hold: a single `LLM` node with a whitespace-only prompt is rejected with
message "Prompt field is required" and the run is not started (second
conjunct); an empty CLI command together with such an `LLM` node is still
reported only for the `LLM` node (third conjunct). -/
theorem c4_cli_validation_missing :
    onExecute [⟨"c1", .CLI, ⟨"Shell", some "", none, none⟩⟩] [] =
      ExecuteOutcome.started
        [⟨"c1", .CLI, ⟨"Shell", some "", none, none⟩⟩] [] ∧
    onExecute [⟨"g1", .LLM, ⟨"Gen", none, some "   ", none⟩⟩] [] =
      ExecuteOutcome.rejected [("g1", "Prompt field is required")] ∧
    onExecute [⟨"c1", .CLI, ⟨"Shell", some "", none, none⟩⟩,
        ⟨"g1", .LLM, ⟨"Gen", none, some "", none⟩⟩] [] =
      ExecuteOutcome.rejected [("g1", "Prompt field is required")] := by
  refine ⟨?_, ?_, ?_⟩ <;> decide

/-! ## The extension message handler (workflow.ts lines 21–105) -/

/-- The messages the run-management part of `onDidReceiveMessage` reacts
to, plus the settling of an awaited `executeWorkflow` promise (whose
`finally` block, lines 64–66, runs then; messages arriving during the
await are dispatched before it). -/
inductive WorkflowMsg where
  | executeWorkflow (hasData : Bool)
  | abortWorkflow
  | runSettled (runId : Nat)
deriving DecidableEq, Repr

/-- Externally visible effects of one handler step: `executeWorkflow` is
invoked for a fresh controller, or a controller's signal is aborted. -/
inductive HandlerEffect where
  | startRun (runId : Nat)
  | abortSignal (runId : Nat)
deriving DecidableEq, Repr

/-- State of the handler closure: the `activeAbortController` variable
(identified by controller id), the runs whose `executeWorkflow` promise
has not settled yet, and a counter producing fresh controller ids. -/
structure HandlerState where
  activeAbortController : Option Nat
  running : List Nat
  nextId : Nat
deriving DecidableEq, Repr

def initialHandlerState : HandlerState := ⟨none, [], 0⟩

/-- One step of the message handler (workflow.ts lines 38–76, with the
`finally` cleanup of lines 64–66):
* `execute_workflow` with nodes and edges present: a fresh
  `AbortController` is stored in `activeAbortController` unconditionally —
  the previous controller is neither checked nor aborted — and
  `executeWorkflow` is started with the new signal;
* `execute_workflow` without data: nothing happens;
* `abort_workflow` (lines 70–75): when a controller is active, abort its
  signal and clear the variable; otherwise do nothing;
* a run's promise settles: the `finally` block clears
  `activeAbortController` (unconditionally) and the run is no longer
  in flight. -/
def handlerStep (s : HandlerState) :
    WorkflowMsg → HandlerState × List HandlerEffect
  | WorkflowMsg.executeWorkflow hasData =>
      if hasData then
        (⟨some s.nextId, s.running ++ [s.nextId], s.nextId + 1⟩,
          [HandlerEffect.startRun s.nextId])
      else (s, [])
  | WorkflowMsg.abortWorkflow =>
      match s.activeAbortController with
      | some c => (⟨none, s.running, s.nextId⟩, [HandlerEffect.abortSignal c])
      | none => (s, [])
  | WorkflowMsg.runSettled r =>
      (⟨none, s.running.erase r, s.nextId⟩, [])

/-- Process a message sequence from a state, collecting all effects. -/
def runHandler (s : HandlerState) :
    List WorkflowMsg → HandlerState × List HandlerEffect
  | [] => (s, [])
  | m :: ms =>
      let p := handlerStep s m
      let q := runHandler p.1 ms
      (q.1, p.2 ++ q.2)

/-- C5 counterexample: a second `execute_workflow` arriving while run 0 is
still in flight is neither rejected nor preceded by a cancellation: both
runs are started (and stay running), no abort signal is ever issued, and
no rejection exists in the protocol. -/
theorem c5_counterexample :
    (runHandler initialHandlerState
      [WorkflowMsg.executeWorkflow true,
        WorkflowMsg.executeWorkflow true]).1.running = [0, 1] ∧
    (runHandler initialHandlerState
      [WorkflowMsg.executeWorkflow true,
        WorkflowMsg.executeWorkflow true]).2 =
      [HandlerEffect.startRun 0, HandlerEffect.startRun 1] := by
  constructor
  · decide
  · decide

/-- C5 amended: a start request arriving while a run is active is neither
rejected with `RunAlreadyActive` nor preceded by a cancellation of the
prior run.  The handler unconditionally overwrites
`activeAbortController` with a fresh controller and starts a second
concurrent run: afterwards at least two runs are in flight, the only
effect is the new `startRun`, and no abort signal is emitted. -/
theorem c5_no_single_run_enforcement (s : HandlerState)
    (hactive : s.running ≠ []) :
    (handlerStep s (WorkflowMsg.executeWorkflow true)).1.running =
      s.running ++ [s.nextId] ∧
    2 ≤ (handlerStep s (WorkflowMsg.executeWorkflow true)).1.running.length ∧
    (handlerStep s (WorkflowMsg.executeWorkflow true)).1.activeAbortController =
      some s.nextId ∧
    (handlerStep s (WorkflowMsg.executeWorkflow true)).2 =
      [HandlerEffect.startRun s.nextId] ∧
    ∀ c, HandlerEffect.abortSignal c ∉
      (handlerStep s (WorkflowMsg.executeWorkflow true)).2 := by
  have hlen : 1 ≤ s.running.length := by
    have := List.length_pos.mpr hactive
    omega
  refine ⟨rfl, ?_, rfl, rfl, ?_⟩
  · simp only [handlerStep, if_pos, List.length_append, List.length_cons,
      List.length_nil]
    omega
  · intro c hc
    simp only [handlerStep, if_pos, List.mem_singleton] at hc
    cases hc

/-- Witness for the amended C5: one run in flight, a second start
request. -/
theorem c5_no_single_run_enforcement_witness :
    ((⟨some 0, [0], 1⟩ : HandlerState).running ≠ []) ∧
    ((handlerStep ⟨some 0, [0], 1⟩
        (WorkflowMsg.executeWorkflow true)).1.running = [0] ++ [1] ∧
      2 ≤ (handlerStep ⟨some 0, [0], 1⟩
        (WorkflowMsg.executeWorkflow true)).1.running.length ∧
      (handlerStep ⟨some 0, [0], 1⟩
        (WorkflowMsg.executeWorkflow true)).1.activeAbortController = some 1 ∧
      (handlerStep ⟨some 0, [0], 1⟩
        (WorkflowMsg.executeWorkflow true)).2 = [HandlerEffect.startRun 1] ∧
      ∀ c, HandlerEffect.abortSignal c ∉
        (handlerStep ⟨some 0, [0], 1⟩
          (WorkflowMsg.executeWorkflow true)).2) :=
  ⟨by decide, c5_no_single_run_enforcement ⟨some 0, [0], 1⟩ (by decide)⟩

/-- C8: `abort_workflow` with no active controller is a no-op producing no
effect; with an active controller `c` it aborts exactly that signal once,
leaves the in-flight list untouched, and clears
`activeAbortController` — so an immediately following abort is a no-op
(the signal is never aborted twice) and a subsequent run may install a
fresh controller. -/
theorem c8_abort_behaviour (s : HandlerState) :
    (s.activeAbortController = none →
      handlerStep s WorkflowMsg.abortWorkflow = (s, [])) ∧
    (∀ c, s.activeAbortController = some c →
      (handlerStep s WorkflowMsg.abortWorkflow).2 =
        [HandlerEffect.abortSignal c] ∧
      (handlerStep s WorkflowMsg.abortWorkflow).1.activeAbortController =
        none ∧
      (handlerStep s WorkflowMsg.abortWorkflow).1.running = s.running ∧
      (handlerStep s WorkflowMsg.abortWorkflow).1.nextId = s.nextId ∧
      handlerStep (handlerStep s WorkflowMsg.abortWorkflow).1
        WorkflowMsg.abortWorkflow =
        ((handlerStep s WorkflowMsg.abortWorkflow).1, [])) := by
  obtain ⟨a, run, nid⟩ := s
  constructor
  · intro ha
    simp only at ha
    subst ha
    rfl
  · intro c hc
    simp only at hc
    subst hc
    exact ⟨rfl, rfl, rfl, rfl, rfl⟩

/-- Witness for C8: both the idle and the active case at concrete
states. -/
theorem c8_abort_behaviour_witness :
    (handlerStep ⟨none, [], 3⟩ WorkflowMsg.abortWorkflow =
      ((⟨none, [], 3⟩ : HandlerState), []) ∧
    ((handlerStep ⟨some 5, [5], 6⟩ WorkflowMsg.abortWorkflow).2 =
        [HandlerEffect.abortSignal 5] ∧
      (handlerStep ⟨some 5, [5], 6⟩
        WorkflowMsg.abortWorkflow).1.activeAbortController = none ∧
      (handlerStep ⟨some 5, [5], 6⟩ WorkflowMsg.abortWorkflow).1.running =
        [5] ∧
      (handlerStep ⟨some 5, [5], 6⟩ WorkflowMsg.abortWorkflow).1.nextId = 6 ∧
      handlerStep (handlerStep ⟨some 5, [5], 6⟩
          WorkflowMsg.abortWorkflow).1 WorkflowMsg.abortWorkflow =
        ((handlerStep ⟨some 5, [5], 6⟩ WorkflowMsg.abortWorkflow).1, []))) :=
  ⟨(c8_abort_behaviour ⟨none, [], 3⟩).1 rfl,
    (c8_abort_behaviour ⟨some 5, [5], 6⟩).2 5 rfl⟩
